import Mathlib

/-!
Verification of the turn-synchronization and state-resolution engine of a
multiplayer TRPG backend.  The definitions below are shallow embeddings of
the Python source files game/state.py, game/consumers.py and
game/gm_engine.py; the theorems at the end of the file settle the
specification claims against those definitions.

Python dicts and Redis hashes are modelled as ordered association lists
with unique keys; dict assignment and HSET are the setKey operation, which
overwrites the value of an existing key in place and otherwise appends.
-/

namespace Spec2

/-- Lookup in an association list (Python dict.get / Redis GET on a hash). -/
def lookupKey {α : Type} (m : List (String × α)) (k : String) : Option α :=
  match m with
  | [] => none
  | p :: tl => if p.1 = k then some p.2 else lookupKey tl k

/-- Dict assignment / Redis HSET: overwrite the first binding of the key in
place, otherwise append the new binding at the end (insertion order). -/
def setKey {α : Type} (m : List (String × α)) (k : String) (v : α) : List (String × α) :=
  match m with
  | [] => [(k, v)]
  | p :: tl => if p.1 = k then (k, v) :: tl else p :: setKey tl k v

/-- Key removal (Python cache.delete / dict del). -/
def eraseKey {α : Type} (m : List (String × α)) (k : String) : List (String × α) :=
  match m with
  | [] => []
  | p :: tl => if p.1 = k then tl else p :: eraseKey tl k

/-- The key list of an association list. -/
def keysOf {α : Type} (m : List (String × α)) : List String :=
  m.map Prod.fst

/-- Python dict.update: fold the second dict into the first with setKey. -/
def updateMap (base upd : List (String × String)) : List (String × String) :=
  upd.foldl (fun acc p => setKey acc p.1 p.2) base

/-! ## JSON values

game/state.py stores the whole session state through json.dumps and reads it
back through json.loads.  We model JSON-serializable values by the Json
inductive below, the serializer dumps mirroring json.dumps with its default
separators, and loads as a recursive-descent reader of that output format. -/

/-- JSON-serializable values (numbers restricted to integers). -/
inductive Json where
  | null : Json
  | bool (b : Bool) : Json
  | num (n : Int) : Json
  | str (s : String) : Json
  | arr (elems : List Json) : Json
  | obj (members : List (String × Json)) : Json

/-- Decimal digit to its character. -/
def digitChar : Nat → Char
  | 0 => '0' | 1 => '1' | 2 => '2' | 3 => '3' | 4 => '4'
  | 5 => '5' | 6 => '6' | 7 => '7' | 8 => '8' | _ => '9'

/-- Fuel-driven decimal writer; the fuel is always sufficient at call sites. -/
def natToCharsAux : Nat → Nat → List Char → List Char
  | 0, _, acc => acc
  | fuel + 1, n, acc =>
    if n < 10 then digitChar n :: acc
    else natToCharsAux fuel (n / 10) (digitChar (n % 10) :: acc)

/-- Decimal representation of a natural number. -/
def natToChars (n : Nat) : List Char :=
  natToCharsAux (n + 1) n []

/-- Decimal representation of an integer, with a leading minus sign. -/
def intToChars (i : Int) : List Char :=
  if i < 0 then '-' :: natToChars i.natAbs else natToChars i.toNat

/-- JSON string escaping for the quote and backslash characters. -/
def escapeChar (c : Char) : List Char :=
  if c = '"' ∨ c = '\\' then ['\\', c] else [c]

/-- Escape every character of a string body. -/
def escapeString (cs : List Char) : List Char :=
  match cs with
  | [] => []
  | c :: tl => escapeChar c ++ escapeString tl

mutual

/-- json.dumps output, character by character (default separators). -/
def dumpsChars : Json → List Char
  | .null => ['n', 'u', 'l', 'l']
  | .bool b => if b then ['t', 'r', 'u', 'e'] else ['f', 'a', 'l', 's', 'e']
  | .num n => intToChars n
  | .str s => '"' :: (escapeString s.data ++ ['"'])
  | .arr xs => '[' :: (dumpsArr xs ++ [']'])
  | .obj ms => '{' :: (dumpsObj ms ++ ['}'])

/-- Array elements joined by a comma and a space. -/
def dumpsArr : List Json → List Char
  | [] => []
  | [x] => dumpsChars x
  | x :: y :: tl => dumpsChars x ++ ',' :: ' ' :: dumpsArr (y :: tl)

/-- Object members joined by a comma and a space, keys separated by a colon. -/
def dumpsObj : List (String × Json) → List Char
  | [] => []
  | [(k, v)] => '"' :: (escapeString k.data ++ ['"']) ++ ':' :: ' ' :: dumpsChars v
  | (k, v) :: m :: tl =>
      ('"' :: (escapeString k.data ++ ['"']) ++ ':' :: ' ' :: dumpsChars v)
        ++ ',' :: ' ' :: dumpsObj (m :: tl)

end

/-- Read a run of decimal digits, accumulating their value. -/
def parseNat : List Char → Nat → Nat × List Char
  | [], acc => (acc, [])
  | c :: rest, acc =>
    if c.isDigit then parseNat rest (acc * 10 + (c.toNat - 48))
    else (acc, c :: rest)

/-- Read a string body up to the closing quote, resolving escapes. -/
def parseStringBody : List Char → Option (List Char × List Char)
  | [] => none
  | c :: rest =>
    if c = '"' then some ([], rest)
    else if c = '\\' then
      match rest with
      | [] => none
      | c2 :: rest2 => (parseStringBody rest2).map (fun p => (c2 :: p.1, p.2))
    else (parseStringBody rest).map (fun p => (c :: p.1, p.2))

mutual

/-- Read one JSON value; the fuel bounds the recursion depth. -/
def parseVal : Nat → List Char → Option (Json × List Char)
  | 0, _ => none
  | fuel + 1, cs =>
    match cs with
    | [] => none
    | c :: rest =>
      if c = 'n' then
        match rest with
        | 'u' :: 'l' :: 'l' :: r => some (.null, r)
        | _ => none
      else if c = 't' then
        match rest with
        | 'r' :: 'u' :: 'e' :: r => some (.bool true, r)
        | _ => none
      else if c = 'f' then
        match rest with
        | 'a' :: 'l' :: 's' :: 'e' :: r => some (.bool false, r)
        | _ => none
      else if c = '"' then
        (parseStringBody rest).map (fun p => (Json.str ⟨p.1⟩, p.2))
      else if c = '[' then
        match rest with
        | [] => none
        | c2 :: rest2 =>
          if c2 = ']' then some (.arr [], rest2)
          else (parseElems fuel (c2 :: rest2)).map (fun p => (Json.arr p.1, p.2))
      else if c = '{' then
        match rest with
        | [] => none
        | c2 :: rest2 =>
          if c2 = '}' then some (.obj [], rest2)
          else (parseMembers fuel (c2 :: rest2)).map (fun p => (Json.obj p.1, p.2))
      else if c = '-' then
        match rest with
        | [] => none
        | d :: rest2 =>
          if d.isDigit then
            some (Json.num (-(((parseNat rest2 (d.toNat - 48)).1 : Nat) : Int)),
              (parseNat rest2 (d.toNat - 48)).2)
          else none
      else if c.isDigit then
        some (Json.num (((parseNat rest (c.toNat - 48)).1 : Nat) : Int),
          (parseNat rest (c.toNat - 48)).2)
      else none

/-- Read the remaining elements of a nonempty array, up to the bracket. -/
def parseElems : Nat → List Char → Option (List Json × List Char)
  | 0, _ => none
  | fuel + 1, cs =>
    match parseVal fuel cs with
    | none => none
    | some (v, rest) =>
      match rest with
      | ',' :: ' ' :: r2 => (parseElems fuel r2).map (fun p => (v :: p.1, p.2))
      | ']' :: r2 => some ([v], r2)
      | _ => none

/-- Read the remaining members of a nonempty object, up to the brace. -/
def parseMembers : Nat → List Char → Option (List (String × Json) × List Char)
  | 0, _ => none
  | fuel + 1, cs =>
    match cs with
    | '"' :: rest =>
      match parseStringBody rest with
      | none => none
      | some (k, r1) =>
        match r1 with
        | ':' :: ' ' :: r2 =>
          match parseVal fuel r2 with
          | none => none
          | some (v, r3) =>
            match r3 with
            | ',' :: ' ' :: r4 => (parseMembers fuel r4).map (fun p => ((⟨k⟩, v) :: p.1, p.2))
            | '}' :: r4 => some ([(⟨k⟩, v)], r4)
            | _ => none
        | _ => none
    | _ => none

end

/-- json.dumps on the Json model. -/
def dumps (v : Json) : String :=
  ⟨dumpsChars v⟩

/-- json.loads on the Json model: the whole input must be one value.  The
fuel argument of parseVal is an artifact of the embedding and is always
sufficient for inputs produced by dumps. -/
def loads (s : String) : Option Json :=
  match parseVal (2 * s.data.length + 2) s.data with
  | some (v, []) => some v
  | _ => none

/-! ## Session-state store (game/state.py)

set_game_state writes the serialized state under the Redis key
game:{room}:state; get_game_state reads that key, returning None when it is
absent or empty (Python truthiness of the fetched string).  A json.loads
failure, which raises in Python, is modelled as none; it cannot occur on
values written by set_game_state. -/

/-- GameState.set_game_state: store json.dumps of the state under the key
made of the literal prefix, the room id and the literal suffix. -/
def set_game_state (store : List (String × String)) (room : String) (state : Json) :
    List (String × String) :=
  setKey store ("game:" ++ room ++ ":state") (dumps state)

/-- GameState.get_game_state: fetch the key and parse it, or return none. -/
def get_game_state (store : List (String × String)) (room : String) : Option Json :=
  match lookupKey store ("game:" ++ room ++ ":state") with
  | some s => if s = "" then none else loads s
  | none => none

/-! ## Turn judgement (game/consumers.py, GameConsumer) -/

/-- GameConsumer._get_dc: the fixed difficulty table with default 10.  The
keys are the source literals for beginner, intermediate and advanced. -/
def _get_dc (difficulty : String) : Int :=
  (lookupKey [("초급", 10), ("중급", 13), ("상급", 16)] difficulty).getD 10

/-- A character as handed to the AI-turn simulation: a possibly present
top-level stats dict, and the nested ability.stats dict used as fallback. -/
structure AICharacter where
  id : String
  name : String
  stats : Option (List (String × Int))
  abilityStats : List (String × Int)
deriving DecidableEq

/-- GameConsumer._get_stat_value: read the stat from the top-level stats
dict when that key holds a dict, else from ability.stats; missing stats
default to 0. -/
def _get_stat_value (character : AICharacter) (stat : String) : Int :=
  match character.stats with
  | some m => (lookupKey m stat).getD 0
  | none => (lookupKey character.abilityStats stat).getD 0

/-- One selectable action of a scene, as judged by the simulation. -/
structure AIChoice where
  id : String
  text : String
  appliedStat : String
  modifier : Int
deriving DecidableEq

/-- The detailed judgement record returned by _simulate_ai_turn_result. -/
structure TurnJudgement where
  role : String
  choiceId : String
  grade : String
  dice : Int
  appliedStat : String
  statValue : Int
  modifier : Int
  total : Int
  characterName : String
  characterId : String
deriving DecidableEq

/-- GameConsumer._simulate_ai_turn_result, with the two random draws made
explicit: the chosen action and the d20 value are parameters.  Grades use
the source letters: SP critical success, SF critical failure, S success,
F failure. -/
def _simulate_ai_turn_result (character : AICharacter) (choice : AIChoice)
    (dice : Int) (difficulty : String) (roleId : String) : TurnJudgement :=
  let statValue := _get_stat_value character choice.appliedStat
  let modifier := choice.modifier
  let total := dice + statValue + modifier
  let dc := _get_dc difficulty
  let grade :=
    if dice = 20 then "SP"
    else if dice = 1 then "SF"
    else if total ≥ dc then "S"
    else "F"
  { role := roleId
    choiceId := choice.id
    grade := grade
    dice := dice
    appliedStat := choice.appliedStat
    statValue := statValue
    modifier := modifier
    total := total
    characterName := character.name
    characterId := character.id }

/-! ## Session state and resolution results (game/gm_engine.py)

The session state handled by apply_gm_result_to_state is the game-state
dict cached per room: its keys relevant to the merge (turn, world, party,
log, hurt_count, cooldowns) are modelled as typed fields, Option marking
keys that may be absent; the keys only carried along by the deep copy
(current_scene, conversation_history, difficulty) are kept as opaque
fields so that claims about them remaining untouched can be stated. -/

/-- An inventory item or spell entry: either a plain string or an object
with a name, an optional charges field, and any further fields. -/
inductive InvEntry where
  | plain (s : String) : InvEntry
  | obj (name : String) (charges : Option Int) (rest : List (String × String)) : InvEntry
deriving DecidableEq

/-- The name an entry is matched by: str(it) for plain entries,
str(it.get("name")) for object entries. -/
def InvEntry.entryName : InvEntry → String
  | .plain s => s
  | .obj n _ _ => n

/-- A party member sheet: the fields read or written by the merge. -/
structure Sheet where
  hp : Option Int
  status : List String
  items : List InvEntry
  spells : List InvEntry
deriving DecidableEq

/-- A party member of the session state. -/
structure PartyMember where
  id : String
  name : String
  role : String
  memory : String
  sheet : Sheet
deriving DecidableEq

/-- A log entry, an opaque dict. -/
structure LogEntry where
  fields : List (String × String)
deriving DecidableEq

/-- The cached session state of a room. -/
structure GState where
  turn : Option Int
  world : List (String × String)
  party : List PartyMember
  log : List LogEntry
  hurt_count : List (String × Int)
  cooldowns : List (String × List (String × Int))
  current_scene : Option String
  conversation_history : List (String × String)
  difficulty : Option String
deriving DecidableEq

/-- One entry of the result party list: an id and the hp and status keys of
its changes dict, when present. -/
structure PartyChange where
  id : String
  hp : Option Int
  status : Option (List String)
deriving DecidableEq

/-- The shari.update.inventory block. -/
structure InvDelta where
  consumed : List (String × List String)
  added : List (String × List InvEntry)
  charges : List (String × List (String × Int))
deriving DecidableEq

/-- The shari.update block.  Option fields mark keys that may be absent in
the raw model output; an absent previousLocation and one set to the Python
None behave identically and are both modelled as none. -/
structure ShariUpdate where
  characterHurt : List (String × Bool)
  currentLocation : Option String
  previousLocation : Option String
  notes : Option String
  inventory : Option InvDelta
  skillsCooldown : Option (List (String × List (String × Int)))
deriving DecidableEq

/-- The update block with every key absent. -/
def emptyShariUpdate : ShariUpdate :=
  { characterHurt := []
    currentLocation := none
    previousLocation := none
    notes := none
    inventory := none
    skillsCooldown := none }

/-- The inventory delta with empty consumed, added and charges maps. -/
def emptyInvDelta : InvDelta :=
  { consumed := [], added := [], charges := [] }

/-- The shari block; the assess and rolls arrays are not consulted by the
merge and are omitted from the model. -/
structure Shari where
  update : Option ShariUpdate
deriving DecidableEq

/-- A parsed generator result.  Option fields mark keys the model output
may omit; is_final_turn is read by the consumer with default false. -/
structure GMResult where
  turn : Option Int
  narration : Option String
  personal : Option (List (String × String))
  world : Option (List (String × String))
  party : Option (List PartyChange)
  log_append : Option (List LogEntry)
  shari : Option Shari
  is_final_turn : Option Bool
deriving DecidableEq

/-- The ids of the state party, in order. -/
def partyIds (state : GState) : List String :=
  state.party.map PartyMember.id

/-- dict.setdefault folded over the party ids: keep existing entries and
append a binding to the empty string for each missing id. -/
def fillPersonal (ids : List String) (personal : List (String × String)) :
    List (String × String) :=
  match ids with
  | [] => personal
  | pid :: tl =>
    fillPersonal tl
      (if (lookupKey personal pid).isSome then personal else personal ++ [(pid, "")])

/-- gm_engine._normalize_result: give every required key a default.  The
personal map gains an empty-string entry per known party id; world defaults
to the unchanged state world; the update block gains a currentLocation
defaulting to the state world location, empty inventory maps and an empty
cooldown map. -/
def _normalize_result (state : GState) (result : GMResult) : GMResult :=
  let upd0 := ((result.shari.getD ⟨none⟩).update).getD emptyShariUpdate
  let upd : ShariUpdate :=
    { characterHurt := upd0.characterHurt
      currentLocation :=
        match upd0.currentLocation with
        | some c => some c
        | none => lookupKey state.world "location"
      previousLocation := upd0.previousLocation
      notes := some (upd0.notes.getD "")
      inventory := some (upd0.inventory.getD emptyInvDelta)
      skillsCooldown := some (upd0.skillsCooldown.getD []) }
  { turn := some (result.turn.getD (state.turn.getD 0 + 1))
    narration := some (result.narration.getD "")
    personal := some (fillPersonal (partyIds state) (result.personal.getD []))
    world := some (result.world.getD state.world)
    party := some (result.party.getD [])
    log_append := some (result.log_append.getD [])
    shari := some ⟨some upd⟩
    is_final_turn := result.is_final_turn }

/-- The index a member id resolves to: last occurrence wins, mirroring the
dict comprehension building party_index. -/
def partyIndexAux (party : List PartyMember) (pid : String) (base : Nat)
    (acc : Option Nat) : Option Nat :=
  match party with
  | [] => acc
  | p :: tl => partyIndexAux tl pid (base + 1) (if p.id = pid then some base else acc)

/-- party_index lookup for one id. -/
def partyIndex (party : List PartyMember) (pid : String) : Option Nat :=
  partyIndexAux party pid 0 none

/-- Set union as performed on status lists: old and new, deduplicated; the
Python set union loses order, here modelled left to right. -/
def statusUnion (old new : List String) : List String :=
  (old ++ new.filter (fun s => ! old.contains s)).dedup

/-- Apply one party change: additive hp, unioned status, other fields kept. -/
def applyPartyChange (party : List PartyMember) (ch : PartyChange) : List PartyMember :=
  match partyIndex party ch.id with
  | none => party
  | some i =>
    match party.get? i with
    | none => party
    | some p =>
      let sheet := p.sheet
      let sheet :=
        match ch.hp with
        | some d => { sheet with hp := some (sheet.hp.getD 0 + d) }
        | none => sheet
      let sheet :=
        match ch.status with
        | some sts => { sheet with status := statusUnion sheet.status sts }
        | none => sheet
      party.set i { p with sheet := sheet }

/-- Modify the sheet of the member the id resolves to, if any. -/
def modifySheetAt (party : List PartyMember) (pid : String) (f : Sheet → Sheet) :
    List PartyMember :=
  match partyIndex party pid with
  | none => party
  | some i =>
    match party.get? i with
    | none => party
    | some p => party.set i { p with sheet := f p.sheet }

/-- Drop every entry whose name is among the consumed names (exact match). -/
def filterConsumed (names : List String) (l : List InvEntry) : List InvEntry :=
  l.filter (fun e => ! names.contains e.entryName)

/-- Add the signed delta to the charges of every object entry whose name is
in the delta map; plain entries and unmatched names are untouched. -/
def applyCharges (delta : List (String × Int)) (l : List InvEntry) : List InvEntry :=
  l.map (fun e =>
    match e with
    | .plain s => .plain s
    | .obj n ch rest =>
      match lookupKey delta n with
      | some d => .obj n (some (ch.getD 0 + d)) rest
      | none => .obj n ch rest)

/-- The consumed phase on one sheet: drop the named entries from the items
and from the spells. -/
def gConsumed (names : List String) (sh : Sheet) : Sheet :=
  { sh with
    items := filterConsumed names sh.items
    spells := filterConsumed names sh.spells }

/-- The added phase on one sheet: append the listed entries to the items. -/
def gAdded (entries : List InvEntry) (sh : Sheet) : Sheet :=
  { sh with items := sh.items ++ entries }

/-- The charges phase on one sheet: shift charges on items and spells. -/
def gCharges (delta : List (String × Int)) (sh : Sheet) : Sheet :=
  { sh with
    items := applyCharges delta sh.items
    spells := applyCharges delta sh.spells }

/-- One cooldown entry: write each skill counter into the member bucket. -/
def applyCooldownEntry (cd : List (String × List (String × Int)))
    (e : String × List (String × Int)) : List (String × List (String × Int)) :=
  let bucket := (lookupKey cd e.1).getD []
  let bucket := e.2.foldl (fun b st => setKey b st.1 st.2) bucket
  setKey cd e.1 bucket

/-- gm_engine.apply_gm_result_to_state: produce the next session state from
a generator result.  Phases in source order: shallow world merge, log
append, turn increment, party hp and status changes, location moves, hurt
counters, inventory consumed then added then charges, skill cooldowns. -/
def apply_gm_result_to_state (state : GState) (result : GMResult) : GState :=
  let world :=
    match result.world with
    | some w => updateMap state.world w
    | none => state.world
  let log := state.log ++ (result.log_append.getD [])
  let party1 := (result.party.getD []).foldl applyPartyChange state.party
  let upd := ((result.shari.getD ⟨none⟩).update).getD emptyShariUpdate
  let world :=
    match upd.currentLocation with
    | some c => if c = "" then world else setKey world "location" c
    | none => world
  let world :=
    match upd.previousLocation with
    | some p => setKey world "prev_location" p
    | none => world
  let hurt :=
    upd.characterHurt.foldl
      (fun hc e =>
        if e.2 then setKey hc e.1 ((lookupKey hc e.1).getD 0 + 1) else hc)
      state.hurt_count
  let inv := upd.inventory.getD emptyInvDelta
  let party2 :=
    inv.consumed.foldl (fun pt e => modifySheetAt pt e.1 (gConsumed e.2)) party1
  let party3 :=
    inv.added.foldl (fun pt e => modifySheetAt pt e.1 (gAdded e.2)) party2
  let party4 :=
    inv.charges.foldl (fun pt e => modifySheetAt pt e.1 (gCharges e.2)) party3
  let cooldowns := (upd.skillsCooldown.getD []).foldl applyCooldownEntry state.cooldowns
  { turn := some (state.turn.getD 0 + 1)
    world := world
    party := party4
    log := log
    hurt_count := hurt
    cooldowns := cooldowns
    current_scene := state.current_scene
    conversation_history := state.conversation_history
    difficulty := state.difficulty }

/-! ## Turn collection and the submit-resolve flow (game/consumers.py)

The stored per-turn contributions live in a Redis hash keyed by user id.
GameState.store_turn_result, get_all_turn_results and clear_turn_results
are called by the consumer but their bodies are not under src; they are
modelled from the spec (storeContribution overwrites any prior contribution
of the same participant, getAllContributions returns the map, and
clearContributions empties it), matching the HSET semantics of the sibling
GameState.store_choice that is under src. -/

/-- Modelled from the spec: GameState.store_turn_result, whose body is not
under src. storeContribution overwrites any prior contribution by the same
participant (last-submission-wins) in the per-room hash. -/
def store_turn_result {α : Type} (results : List (String × α)) (userId : String)
    (payload : α) : List (String × α) :=
  setKey results userId payload

/-- GameState.store_choice (game/state.py): HSET of the chosen option under
the role field of the per-scene hash, overwriting any prior value. -/
def store_choice (choices : List (String × String)) (role choiceId : String) :
    List (String × String) :=
  setKey choices role choiceId

/-- A whole submission sequence folded into the per-scene hash, starting
from the empty hash of a fresh turn. -/
def submitAll (subs : List (String × String)) : List (String × String) :=
  subs.foldl (fun m s => store_choice m s.1 s.2) []

/-- The specification reading of last-submission-wins, written from the
spec words for comparison with the fold over store_choice: the latest
submitted value of the participant, if any. -/
def specLastSubmission (subs : List (String × String)) (participant : String) :
    Option String :=
  ((subs.filter (fun s => s.1 = participant)).getLast?).map Prod.snd

/-- The completeness test of submit_player_choice:
active_participant_ids.issubset(submitted_user_ids). -/
def isCompleteCheck (active submittedIds : List String) : Bool :=
  active.all (fun pid => submittedIds.contains pid)

/-- Events observable from the consumer during one submit. -/
inductive GEvent where
  | turnWaiting (submitted : List String) (total : Nat) : GEvent
  | errorMsg (message : String) : GEvent
  | gameOver : GEvent
  | turnResolved : GEvent
  | crash : GEvent
deriving DecidableEq

/-- The per-room game-state store at the key level: set_game_state writes
under game:{room}:state, clear_game_state deletes game_state_{room} (the
keys as spelled in the source).  Serialization is covered separately by the
Json development; here the store holds the typed states. -/
def setGameStateS (store : List (String × GState)) (room : String) (st : GState) :
    List (String × GState) :=
  setKey store ("game:" ++ room ++ ":state") st

/-- Read the stored state of a room, as get_game_state does. -/
def getGameStateS (store : List (String × GState)) (room : String) : Option GState :=
  lookupKey store ("game:" ++ room ++ ":state")

/-- GameConsumer.clear_game_state: cache.delete of the key game_state_
followed by the room id. -/
def clearGameStateS (store : List (String × GState)) (room : String) :
    List (String × GState) :=
  eraseKey store ("game_state_" ++ room)

/-- Whether the consumer treats a result as ending the game:
gm_result.get with key is_final_turn and default False. -/
def isFinalTurn (result : GMResult) : Bool :=
  result.is_final_turn.getD false

/-- The outcome of one resolution attempt: the game-state store afterwards,
the emitted events, and whether the Python coroutine raised. -/
structure ResolutionRun where
  store : List (String × GState)
  events : List GEvent
  raised : Bool
deriving DecidableEq

/-- GameConsumer.handle_turn_resolution_with_ai, with the generator call
made an explicit outcome parameter and the broadcast payloads reduced to
event tags.  A missing cached state makes the Python coroutine raise before
its try block, modelled as raised with the crash event; a missing
current_scene or a generator error sends an error message and returns
without touching the store; a final result broadcasts game over and runs
clear_game_state; a normal result merges, appends the turn summary and the
narration to the conversation history, and stores the next state. -/
def handleTurnResolutionWithAi (store : List (String × GState)) (room : String)
    (gen : Except String GMResult) (summaryText : String) : ResolutionRun :=
  match getGameStateS store room with
  | none => { store := store, events := [.crash], raised := true }
  | some state =>
    if state.current_scene.isNone then
      { store := store, events := [.errorMsg "scene"], raised := false }
    else
      match gen with
      | .error e => { store := store, events := [.errorMsg e], raised := false }
      | .ok gm =>
        if isFinalTurn gm then
          { store := clearGameStateS store room, events := [.gameOver], raised := false }
        else
          let next := apply_gm_result_to_state state gm
          let next :=
            { next with
              conversation_history :=
                next.conversation_history ++
                  [("user", summaryText),
                   ("assistant", gm.narration.getD "아무 일도 일어나지 않았습니다.")] }
          { store := setGameStateS store room next, events := [.turnResolved],
            raised := false }

/-- The submit_player_choice branch of GameConsumer.receive_json: store the
contribution, then either broadcast waiting or run the resolution and clear
the stored contributions.  The clear runs after the resolution coroutine
returns, including when that coroutine swallowed a generator error; it is
skipped only when the coroutine raised (crash). -/
def submitPlayerChoice {α : Type} (active : List String)
    (contribs : List (String × α)) (store : List (String × GState))
    (room userId : String) (payload : α) (gen : Except String GMResult)
    (summaryText : String) :
    List (String × α) × List (String × GState) × List GEvent :=
  let contribs1 := store_turn_result contribs userId payload
  let submitted := keysOf contribs1
  if ¬ isCompleteCheck active submitted then
    (contribs1, store, [.turnWaiting submitted active.length])
  else
    let r := handleTurnResolutionWithAi store room gen summaryText
    if r.raised then (contribs1, r.store, r.events)
    else ([], r.store, r.events)

/-! ## Measures for the round-trip proof -/

/-- Whether the input starts with a decimal digit (used to delimit the
greedy number reader). -/
def digitStart : List Char → Prop
  | [] => False
  | c :: _ => c.isDigit = true

instance : DecidablePred digitStart := fun cs =>
  match cs with
  | [] => inferInstanceAs (Decidable False)
  | _ :: _ => inferInstanceAs (Decidable (_ = true))

/-- Digit run folded into a value on top of an accumulator. -/
def charsToNat (cs : List Char) (acc : Nat) : Nat :=
  cs.foldl (fun a c => a * 10 + (c.toNat - 48)) acc

mutual

/-- Fuel needed by parseVal on serialized output. -/
def sizeV : Json → Nat
  | .arr xs => sizeL xs + 1
  | .obj ms => sizeM ms + 1
  | _ => 1

/-- Fuel needed by parseElems on serialized output. -/
def sizeL : List Json → Nat
  | [] => 1
  | v :: tl => sizeV v + sizeL tl + 1

/-- Fuel needed by parseMembers on serialized output. -/
def sizeM : List (String × Json) → Nat
  | [] => 1
  | m :: tl => sizeV m.2 + sizeM tl + 1

end

/-- A concrete cached session state used by the closed theorems. -/
def sampleState : GState :=
  { turn := some 3
    world := [("location", "성곽")]
    party := []
    log := []
    hurt_count := []
    cooldowns := []
    current_scene := some "scene0"
    conversation_history := []
    difficulty := some "초급" }

/-- A concrete generator result flagged as the final turn. -/
def sampleTerminalResult : GMResult :=
  { turn := none, narration := some "끝", personal := none, world := none,
    party := none, log_append := none, shari := none, is_final_turn := some true }

/-- A concrete generator result of an ordinary turn. -/
def sampleNormalResult : GMResult :=
  { turn := none, narration := some "계속", personal := none, world := none,
    party := none, log_append := none, shari := none, is_final_turn := none }

/-- The inventory block a result carries into the merge, after the same
chain of defaults the merge itself applies. -/
def invOf (result : GMResult) : InvDelta :=
  ((((result.shari.getD ⟨none⟩).update).getD emptyShariUpdate).inventory).getD emptyInvDelta

/-- The consumed names of one member in a result, default empty. -/
def consumedFor (result : GMResult) (pid : String) : List String :=
  (lookupKey (invOf result).consumed pid).getD []

/-- The added entries of one member in a result, default empty. -/
def addedFor (result : GMResult) (pid : String) : List InvEntry :=
  (lookupKey (invOf result).added pid).getD []

/-- The charge deltas of one member in a result, default empty. -/
def chargesFor (result : GMResult) (pid : String) : List (String × Int) :=
  (lookupKey (invOf result).charges pid).getD []

/-- A session state whose world holds location A. -/
def worldStateA : GState :=
  { turn := none, world := [("location", "A")], party := [], log := [],
    hurt_count := [], cooldowns := [], current_scene := none,
    conversation_history := [], difficulty := none }

/-- A raw generator result whose world delta moves the location to B. -/
def worldDeltaResult : GMResult :=
  { turn := none, narration := none, personal := none,
    world := some [("location", "B")], party := none, log_append := none,
    shari := none, is_final_turn := none }

/-- A party member holding a rope, a dagger and the light spell. -/
def sampleMember : PartyMember :=
  { id := "p1", name := "엘라", role := "정찰수", memory := ""
    sheet := { hp := some 10, status := [],
               items := [.plain "rope", .plain "dagger"],
               spells := [.obj "light" (some 3) []] } }

/-- A state with one party member, for the merge examples. -/
def samplePartyState : GState :=
  { turn := some 1, world := [("location", "A")], party := [sampleMember],
    log := [], hurt_count := [], cooldowns := [], current_scene := some "scene0",
    conversation_history := [], difficulty := none }

/-- A result that consumes the rope, adds a gold coin and drains one charge
of the light spell of member p1. -/
def sampleInvResult : GMResult :=
  { turn := none, narration := none, personal := none, world := none,
    party := none, log_append := none,
    shari := some ⟨some
      { characterHurt := [], currentLocation := none, previousLocation := none,
        notes := none,
        inventory := some
          { consumed := [("p1", ["rope"])],
            added := [("p1", [.plain "gold coin"])],
            charges := [("p1", [("light", -1)])] },
        skillsCooldown := none }⟩,
    is_final_turn := none }

/-- The shallow world merge as the spec words it, for comparison with the
code: a key present in the world delta overwrites, an absent key keeps its
previous value.  The delta of a normalized result is the raw world when
present and the unchanged state world otherwise. -/
def specWorldMergeLookup (state : GState) (result : GMResult) (k : String) :
    Option String :=
  match lookupKey (result.world.getD state.world) k with
  | some v => some v
  | none => lookupKey state.world k

/-- The properties claimed of one judgement, gathered so the theorem and
its witness share one statement: the dice, stat, total and DC computations
and the priority of the grade rules. -/
def JudgementClaim (character : AICharacter) (choice : AIChoice) (dice : Int)
    (difficulty roleId : String) : Prop :=
  let r := _simulate_ai_turn_result character choice dice difficulty roleId
  r.dice = dice ∧
  r.statValue = _get_stat_value character choice.appliedStat ∧
  (∀ m, character.stats = some m → lookupKey m choice.appliedStat = none →
    r.statValue = 0) ∧
  (character.stats = none → lookupKey character.abilityStats choice.appliedStat = none →
    r.statValue = 0) ∧
  r.total = dice + r.statValue + choice.modifier ∧
  _get_dc "초급" = 10 ∧ _get_dc "중급" = 13 ∧ _get_dc "상급" = 16 ∧
  (difficulty ≠ "초급" → difficulty ≠ "중급" → difficulty ≠ "상급" →
    _get_dc difficulty = 10) ∧
  (r.grade = "SP" ↔ dice = 20) ∧
  (dice ≠ 20 → (r.grade = "SF" ↔ dice = 1)) ∧
  (dice ≠ 20 → dice ≠ 1 → (r.grade = "S" ↔ _get_dc difficulty ≤ r.total)) ∧
  (dice ≠ 20 → dice ≠ 1 → (r.grade = "F" ↔ r.total < _get_dc difficulty))

/-! ## Lemmas on the association-list operations -/

theorem lookupKey_setKey_self {α : Type} (m : List (String × α)) (k : String) (v : α) :
    lookupKey (setKey m k v) k = some v := by
  induction m with
  | nil => simp [setKey, lookupKey]
  | cons p tl ih =>
    by_cases h : p.1 = k
    · simp [setKey, h, lookupKey]
    · simp [setKey, h, lookupKey, ih]

theorem lookupKey_setKey_ne {α : Type} (m : List (String × α)) (k k' : String) (v : α)
    (h : k' ≠ k) : lookupKey (setKey m k v) k' = lookupKey m k' := by
  induction m with
  | nil => simp [setKey, lookupKey, Ne.symm h]
  | cons p tl ih =>
    by_cases hp : p.1 = k
    · subst hp
      simp [setKey, lookupKey, Ne.symm h]
    · simp only [setKey, if_neg hp, lookupKey]
      by_cases hp' : p.1 = k'
      · simp [hp']
      · simp [hp', ih]

theorem lookupKey_eraseKey_ne {α : Type} (m : List (String × α)) (k k' : String)
    (h : k' ≠ k) : lookupKey (eraseKey m k) k' = lookupKey m k' := by
  induction m with
  | nil => simp [eraseKey, lookupKey]
  | cons p tl ih =>
    by_cases hp : p.1 = k
    · subst hp
      simp [eraseKey, lookupKey, Ne.symm h]
    · simp only [eraseKey, if_neg hp, lookupKey]
      by_cases hp' : p.1 = k'
      · simp [hp']
      · simp [hp', ih]

theorem keysOf_setKey {α : Type} (m : List (String × α)) (k : String) (v : α) :
    keysOf (setKey m k v) = if k ∈ keysOf m then keysOf m else keysOf m ++ [k] := by
  induction m with
  | nil => simp [setKey, keysOf]
  | cons p tl ih =>
    by_cases h : p.1 = k
    · subst h
      simp [setKey, keysOf]
    · have hne : ¬ k = p.1 := fun hh => h hh.symm
      simp only [setKey, if_neg h, keysOf, List.map_cons]
      rw [show List.map Prod.fst (setKey tl k v) = keysOf (setKey tl k v) from rfl, ih]
      by_cases hmem : k ∈ keysOf tl
      · simp only [keysOf] at hmem
        simp [keysOf, hmem, hne]
      · simp only [keysOf] at hmem
        simp [keysOf, hmem, hne]

theorem lookupKey_isSome_iff_mem {α : Type} (m : List (String × α)) (k : String) :
    (lookupKey m k).isSome = true ↔ k ∈ keysOf m := by
  induction m with
  | nil => simp [lookupKey, keysOf]
  | cons p tl ih =>
    by_cases h : p.1 = k
    · simp [lookupKey, h, keysOf]
    · have hne : ¬ k = p.1 := fun hh => h hh.symm
      simp [lookupKey, h, keysOf, hne, ih]

theorem keysOf_nodup_setKey {α : Type} (m : List (String × α)) (k : String) (v : α)
    (h : (keysOf m).Nodup) : (keysOf (setKey m k v)).Nodup := by
  rw [keysOf_setKey]
  by_cases hmem : k ∈ keysOf m
  · simpa [hmem] using h
  · rw [if_neg hmem]
    refine List.Nodup.append h (List.nodup_singleton k) ?_
    intro a ha hb
    have : a = k := by simpa using hb
    subst this
    exact hmem ha

theorem lookupKey_updateMap_not_mem (base upd : List (String × String)) (k : String)
    (h : k ∉ keysOf upd) : lookupKey (updateMap base upd) k = lookupKey base k := by
  induction upd generalizing base with
  | nil => simp [updateMap]
  | cons p tl ih =>
    simp [keysOf] at h
    push_neg at h
    have := ih (setKey base p.1 p.2) (by simpa [keysOf] using h.2)
    simpa [updateMap, List.foldl_cons, lookupKey_setKey_ne base p.1 k p.2 h.1] using this

theorem lookupKey_updateMap (base upd : List (String × String)) (k : String)
    (h : (keysOf upd).Nodup) :
    lookupKey (updateMap base upd) k =
      match lookupKey upd k with
      | some v => some v
      | none => lookupKey base k := by
  induction upd generalizing base with
  | nil => simp [updateMap, lookupKey]
  | cons p tl ih =>
    simp [keysOf] at h
    by_cases hk : p.1 = k
    · subst hk
      have hnot : p.1 ∉ keysOf tl := by simpa [keysOf] using h.1
      have : lookupKey (updateMap (setKey base p.1 p.2) tl) p.1 =
          lookupKey (setKey base p.1 p.2) p.1 :=
        lookupKey_updateMap_not_mem _ tl p.1 hnot
      simp [updateMap, List.foldl_cons, lookupKey]
      rw [show (tl.foldl (fun acc q => setKey acc q.1 q.2) (setKey base p.1 p.2)) =
            updateMap (setKey base p.1 p.2) tl from rfl, this, lookupKey_setKey_self]
    · have := ih (setKey base p.1 p.2) h.2
      simp [updateMap, List.foldl_cons, lookupKey, hk]
      rw [show (tl.foldl (fun acc q => setKey acc q.1 q.2) (setKey base p.1 p.2)) =
            updateMap (setKey base p.1 p.2) tl from rfl, this,
          lookupKey_setKey_ne base p.1 k p.2 (fun hh => hk hh.symm)]

/-! ## Claim theorems: turn number (C1) and judgement (C2) -/

/-- C1: a successful merge by apply_gm_result_to_state yields a next state
whose turn number is exactly the previous turn number plus one (a missing
turn counting as 0); hence the turn number strictly increases with every
merge and a chain of n merges adds exactly n. -/
theorem turn_increments_by_one_per_merge :
    (∀ (state : GState) (result : GMResult),
      (apply_gm_result_to_state state result).turn = some (state.turn.getD 0 + 1)) ∧
    (∀ (state : GState) (result : GMResult),
      state.turn.getD 0 < (apply_gm_result_to_state state result).turn.getD 0) ∧
    (∀ (state : GState) (results : List GMResult),
      ((results.foldl apply_gm_result_to_state state).turn).getD 0 =
        state.turn.getD 0 + results.length) := by
  have h1 : ∀ (state : GState) (result : GMResult),
      (apply_gm_result_to_state state result).turn = some (state.turn.getD 0 + 1) :=
    fun _ _ => rfl
  refine ⟨h1, fun state result => ?_, fun state results => ?_⟩
  · rw [h1]
    simp
  · induction results generalizing state with
    | nil => simp
    | cons r tl ih =>
      have := ih (apply_gm_result_to_state state r)
      rw [List.foldl_cons, this, h1]
      simp
      omega

/-- C2: the turn judgement draws a d20, reads the applied stat with default
0, adds the modifier, looks the DC up in the fixed table with default 10,
and grades with critical success on 20, critical failure on 1, then success
iff the total reaches the DC, independently of stat, modifier and DC in the
two critical cases. -/
theorem judgement_algorithm_correct (character : AICharacter) (choice : AIChoice)
    (dice : Int) (difficulty roleId : String) (_hlo : 1 ≤ dice) (_hhi : dice ≤ 20) :
    JudgementClaim character choice dice difficulty roleId := by
  unfold JudgementClaim
  set r := _simulate_ai_turn_result character choice dice difficulty roleId with hr
  have hdice : r.dice = dice := rfl
  have hstat : r.statValue = _get_stat_value character choice.appliedStat := rfl
  have htotal : r.total = dice + _get_stat_value character choice.appliedStat +
      choice.modifier := rfl
  have hgrade : r.grade =
      (if dice = 20 then "SP" else if dice = 1 then "SF"
       else if dice + _get_stat_value character choice.appliedStat + choice.modifier ≥
          _get_dc difficulty then "S" else "F") := rfl
  refine ⟨hdice, hstat, ?_, ?_, htotal, by decide, by decide, by decide, ?_, ?_, ?_, ?_, ?_⟩
  · intro m hm hl
    rw [hstat]
    simp [_get_stat_value, hm, hl]
  · intro hm hl
    rw [hstat]
    simp [_get_stat_value, hm, hl]
  · intro h1 h2 h3
    simp only [_get_dc, lookupKey]
    rw [if_neg (fun hh => h1 hh.symm), if_neg (fun hh => h2 hh.symm),
        if_neg (fun hh => h3 hh.symm)]
    rfl
  · rw [hgrade]
    by_cases h20 : dice = 20
    · rw [if_pos h20]
      simp [h20]
    · rw [if_neg h20]
      by_cases h1 : dice = 1
      · rw [if_pos h1]
        simp [h20, show ("SF" : String) ≠ "SP" from by decide]
      · rw [if_neg h1]
        by_cases hs : dice + _get_stat_value character choice.appliedStat +
            choice.modifier ≥ _get_dc difficulty
        · rw [if_pos hs]
          simp [h20, show ("S" : String) ≠ "SP" from by decide]
        · rw [if_neg hs]
          simp [h20, show ("F" : String) ≠ "SP" from by decide]
  · intro h20
    rw [hgrade, if_neg h20]
    by_cases h1 : dice = 1
    · rw [if_pos h1]
      simp [h1]
    · rw [if_neg h1]
      by_cases hs : dice + _get_stat_value character choice.appliedStat +
          choice.modifier ≥ _get_dc difficulty
      · rw [if_pos hs]
        simp [h1, show ("S" : String) ≠ "SF" from by decide]
      · rw [if_neg hs]
        simp [h1, show ("F" : String) ≠ "SF" from by decide]
  · intro h20 h1
    rw [hgrade, if_neg h20, if_neg h1, htotal]
    by_cases hs : dice + _get_stat_value character choice.appliedStat +
        choice.modifier ≥ _get_dc difficulty
    · rw [if_pos hs]
      simp
      exact hs
    · rw [if_neg hs]
      simp [show ("F" : String) ≠ "S" from by decide]
      omega
  · intro h20 h1
    rw [hgrade, if_neg h20, if_neg h1, htotal]
    by_cases hs : dice + _get_stat_value character choice.appliedStat +
        choice.modifier ≥ _get_dc difficulty
    · rw [if_pos hs]
      simp [show ("S" : String) ≠ "F" from by decide]
      omega
    · rw [if_neg hs]
      simp
      omega

/-- Witness for C2 at a concrete input: dice 10, stat 5, modifier 0 at the
intermediate difficulty. -/
theorem judgement_algorithm_correct_witness :
    JudgementClaim
      { id := "c1", name := "엘라", stats := some [("힘", 5)], abilityStats := [] }
      { id := "A", text := "돌격", appliedStat := "힘", modifier := 0 }
      10 "중급" "r1" :=
  judgement_algorithm_correct _ _ 10 "중급" "r1" (by decide) (by decide)

/-! ## Claim theorems: submission store (C8) and completeness (C3) -/

theorem getLast?_cons_eq {α : Type} : ∀ (l : List α) (a : α),
    (a :: l).getLast? = some (l.getLast?.getD a)
  | [], a => by simp
  | b :: tl, a => by
    rw [List.getLast?_cons_cons, getLast?_cons_eq tl b]
    simp

theorem lookupKey_foldl_store (subs : List (String × String))
    (m : List (String × String)) (r : String) :
    lookupKey (subs.foldl (fun acc s => store_choice acc s.1 s.2) m) r =
      match (subs.filter (fun s => s.1 = r)).getLast? with
      | some s => some s.2
      | none => lookupKey m r := by
  induction subs generalizing m with
  | nil => simp
  | cons s tl ih =>
    rw [List.foldl_cons, ih (store_choice m s.1 s.2)]
    by_cases hs : s.1 = r
    · subst hs
      rw [List.filter_cons_of_pos (by simp), getLast?_cons_eq]
      cases hft : (tl.filter (fun x => x.1 = s.1)).getLast? with
      | none =>
        simp only [hft]
        simp [store_choice, lookupKey_setKey_self]
      | some t =>
        simp only [hft]
        simp
    · rw [List.filter_cons_of_neg (by simp [hs])]
      cases hft : (tl.filter (fun x => x.1 = r)).getLast? with
      | none =>
        simp only [hft]
        simp [store_choice, lookupKey_setKey_ne m s.1 r s.2 (fun hh => hs hh.symm)]
      | some t =>
        simp only [hft]

theorem keysOf_foldl_store_nodup (subs : List (String × String))
    (m : List (String × String)) (h : (keysOf m).Nodup) :
    (keysOf (subs.foldl (fun acc s => store_choice acc s.1 s.2) m)).Nodup := by
  induction subs generalizing m with
  | nil => simpa using h
  | cons s tl ih =>
    rw [List.foldl_cons]
    exact ih (store_choice m s.1 s.2) (keysOf_nodup_setKey m s.1 s.2 h)

theorem mem_keysOf_foldl_store (subs : List (String × String))
    (m : List (String × String)) (a : String)
    (h : a ∈ keysOf (subs.foldl (fun acc s => store_choice acc s.1 s.2) m)) :
    a ∈ keysOf m ∨ a ∈ subs.map Prod.fst := by
  induction subs generalizing m with
  | nil =>
    rw [List.foldl_nil] at h
    exact Or.inl h
  | cons s tl ih =>
    rw [List.foldl_cons] at h
    rcases ih (store_choice m s.1 s.2) h with h1 | h2
    · rw [show store_choice m s.1 s.2 = setKey m s.1 s.2 from rfl, keysOf_setKey] at h1
      by_cases hmem : s.1 ∈ keysOf m
      · rw [if_pos hmem] at h1
        exact Or.inl h1
      · rw [if_neg hmem] at h1
        rcases List.mem_append.mp h1 with h3 | h3
        · exact Or.inl h3
        · right
          simp at h3
          simp [h3]
    · right
      simp [h2]

/-- C8: submissions fold into a per-participant map: the stored value of a
participant is always the latest submission of that participant, the store
never holds two contributions of the same participant, and the number of
stored contributions never exceeds the number of distinct submitters. -/
theorem submissions_overwrite_per_participant :
    (∀ (subs : List (String × String)) (r : String),
      lookupKey (submitAll subs) r = specLastSubmission subs r) ∧
    (∀ subs : List (String × String), (keysOf (submitAll subs)).Nodup) ∧
    (∀ subs : List (String × String),
      (submitAll subs).length ≤ ((subs.map Prod.fst).dedup).length) := by
  refine ⟨fun subs r => ?_, fun subs => ?_, fun subs => ?_⟩
  · rw [submitAll, lookupKey_foldl_store subs [] r, specLastSubmission]
    cases hft : (subs.filter (fun s => s.1 = r)).getLast? with
    | none => simp [lookupKey]
    | some t => simp
  · exact keysOf_foldl_store_nodup subs [] (by simp [keysOf])
  · have hnodup : (keysOf (submitAll subs)).Nodup :=
      keysOf_foldl_store_nodup subs [] (by simp [keysOf])
    have hsub : ∀ a ∈ keysOf (submitAll subs), a ∈ subs.map Prod.fst := by
      intro a ha
      rcases mem_keysOf_foldl_store subs [] a ha with h1 | h2
      · simp [keysOf] at h1
      · exact h2
    have hlen : (submitAll subs).length = (keysOf (submitAll subs)).length := by
      simp [keysOf]
    rw [hlen]
    have h1 : (keysOf (submitAll subs)).length =
        (keysOf (submitAll subs)).toFinset.card :=
      (List.toFinset_card_of_nodup hnodup).symm
    have h2 : (subs.map Prod.fst).toFinset.card = ((subs.map Prod.fst).dedup).length :=
      List.card_toFinset _
    rw [h1, ← h2]
    exact Finset.card_le_card (fun a ha => by
      rw [List.mem_toFinset] at ha ⊢
      exact hsub a ha)

theorem handleTurnResolution_events_not_waiting (store : List (String × GState))
    (room : String) (gen : Except String GMResult) (summaryText : String)
    (l : List String) (t : Nat) :
    (handleTurnResolutionWithAi store room gen summaryText).events ≠
      [GEvent.turnWaiting l t] := by
  unfold handleTurnResolutionWithAi
  cases hst : getGameStateS store room with
  | none => simp
  | some state =>
    by_cases hsc : state.current_scene.isNone
    · simp [hsc]
    · cases gen with
      | error e => simp [hsc]
      | ok gm =>
        by_cases hf : isFinalTurn gm
        · simp [hsc, hf]
        · simp [hsc, hf]

/-- C3: a turn is judged complete exactly when the active-participant set
is a subset of the stored-contribution keys; shrinking the active set
preserves completeness, so removing a participant can complete a turn with
no new submission, and a submit broadcasts waiting rather than resolving
exactly when the subset condition fails. -/
theorem turn_complete_iff_active_subset_submitted :
    (∀ active submittedIds : List String,
      isCompleteCheck active submittedIds = true ↔
        ∀ pid ∈ active, pid ∈ submittedIds) ∧
    (∀ active active' submittedIds : List String,
      (∀ pid ∈ active', pid ∈ active) →
      isCompleteCheck active submittedIds = true →
      isCompleteCheck active' submittedIds = true) ∧
    (isCompleteCheck ["p1", "p2"] ["p1"] = false ∧
      isCompleteCheck ["p1"] ["p1"] = true) ∧
    (∀ (active : List String) (contribs : List (String × String))
      (store : List (String × GState)) (room userId payload summaryText : String)
      (gen : Except String GMResult),
      (submitPlayerChoice active contribs store room userId payload gen
          summaryText).2.2 =
        [GEvent.turnWaiting (keysOf (store_turn_result contribs userId payload))
          active.length] ↔
      isCompleteCheck active (keysOf (store_turn_result contribs userId payload)) =
        false) := by
  refine ⟨fun active submittedIds => ?_, fun active active' submittedIds hsub hc => ?_,
    ⟨by decide, by decide⟩, fun active contribs store room userId payload s gen => ?_⟩
  · simp [isCompleteCheck, List.all_eq_true]
  · rw [isCompleteCheck, List.all_eq_true] at hc ⊢
    intro pid hpid
    exact hc pid (hsub pid hpid)
  · unfold submitPlayerChoice
    by_cases hc : isCompleteCheck active (keysOf (store_turn_result contribs userId payload)) = true
    · rw [if_neg (by simp [hc])]
      constructor
      · intro hev
        by_cases hr : (handleTurnResolutionWithAi store room gen s).raised
        · rw [if_pos hr] at hev
          exact absurd hev
            (handleTurnResolution_events_not_waiting store room gen s _ _)
        · rw [if_neg hr] at hev
          exact absurd hev
            (handleTurnResolution_events_not_waiting store room gen s _ _)
      · intro hfalse
        rw [hc] at hfalse
        cases hfalse
    · have hcf : isCompleteCheck active (keysOf (store_turn_result contribs userId payload)) = false := by
        cases hcc : isCompleteCheck active (keysOf (store_turn_result contribs userId payload)) with
        | true => exact absurd hcc hc
        | false => rfl
      rw [if_pos (by simp [hcf])]
      simp [hcf]

/-- Witness for C3: completeness survives shrinking the active set at a
concrete input. -/
theorem turn_complete_iff_active_subset_submitted_witness :
    isCompleteCheck ["p1"] ["p1", "p2"] = true :=
  turn_complete_iff_active_subset_submitted.2.1 ["p1", "p2"] ["p1"] ["p1", "p2"]
    (by decide) (by decide)

/-! ## Claim theorems: generator failure (C4) -/

/-- C4 counterexample: with one active participant whose submission
completes the turn and a generator call that errors, the contributions
stored for the turn are cleared, not preserved: the contribution map after
the failed resolution differs from the map as stored before it. -/
theorem generator_error_clears_contributions_counterexample :
    (submitPlayerChoice ["p1"] ([] : List (String × String))
        (setGameStateS [] "r1" sampleState) "r1" "p1" "choiceA"
        (.error "boom") "s").1 ≠
      store_turn_result ([] : List (String × String)) "p1" "choiceA" := by
  decide

/-- C4 as amended: when the turn is complete and the generator call errors,
the resolution attempt mutates no stored session state and the session
stays on the same turn, surfacing only an error message, but the stored
contributions are cleared, so participants must resubmit to retry. -/
theorem generator_error_preserves_state_clears_contributions
    (active : List String) (contribs : List (String × String))
    (store : List (String × GState)) (room userId payload err summaryText : String)
    (st : GState)
    (hc : isCompleteCheck active (keysOf (store_turn_result contribs userId payload)) = true)
    (hget : getGameStateS store room = some st)
    (hscene : st.current_scene.isSome) :
    submitPlayerChoice active contribs store room userId payload (.error err)
      summaryText = ([], store, [GEvent.errorMsg err]) := by
  have hn : st.current_scene.isNone = false := by
    cases hcs : st.current_scene with
    | none => rw [hcs] at hscene; cases hscene
    | some v => rfl
  have hrun : handleTurnResolutionWithAi store room (.error err) summaryText =
      { store := store, events := [GEvent.errorMsg err], raised := false } := by
    unfold handleTurnResolutionWithAi
    rw [hget]
    dsimp only
    rw [if_neg (by simp [hn])]
  unfold submitPlayerChoice
  rw [if_neg (by simp [hc])]
  rw [hrun]
  rfl

/-- Witness for C4 as amended, at a concrete complete submission. -/
theorem generator_error_preserves_state_clears_contributions_witness :
    submitPlayerChoice ["p1"] ([] : List (String × String))
        (setGameStateS [] "r1" sampleState) "r1" "p1" "choiceA" (.error "boom") "s" =
      ([], setGameStateS [] "r1" sampleState, [GEvent.errorMsg "boom"]) :=
  generator_error_preserves_state_clears_contributions ["p1"] [] _ "r1" "p1"
    "choiceA" "boom" "s" sampleState (by decide) (by decide) (by decide)

/-! ## Claim theorems: terminal transition (C9) -/

/-- C9: the code does not remove the stored session state on a terminal
result.  After a complete submission resolved by a final-turn result, the
game-over event is emitted, yet reading the game state of the room still
returns the pre-terminal state, because clear_game_state deletes the cache
key game_state_r1 while the state sits under game:r1:state; a later
complete submission then resolves a further turn for the same session. -/
theorem terminal_result_leaves_state_and_session_alive :
    (submitPlayerChoice ["p1"] ([] : List (String × String))
        (setGameStateS [] "r1" sampleState) "r1" "p1" "choiceA"
        (.ok sampleTerminalResult) "s").2.2 = [GEvent.gameOver] ∧
    getGameStateS
      (submitPlayerChoice ["p1"] ([] : List (String × String))
        (setGameStateS [] "r1" sampleState) "r1" "p1" "choiceA"
        (.ok sampleTerminalResult) "s").2.1 "r1" = some sampleState ∧
    (submitPlayerChoice ["p1"] ([] : List (String × String))
        (submitPlayerChoice ["p1"] ([] : List (String × String))
          (setGameStateS [] "r1" sampleState) "r1" "p1" "choiceA"
          (.ok sampleTerminalResult) "s").2.1 "r1" "p1" "choiceB"
        (.ok sampleNormalResult) "s").2.2 = [GEvent.turnResolved] := by
  refine ⟨by decide, by decide, by decide⟩

/-! ## Claim theorems: normalization defaults (C7) -/

theorem lookupKey_eq_none_of_not_mem {α : Type} (m : List (String × α)) (k : String)
    (h : k ∉ keysOf m) : lookupKey m k = none := by
  cases hl : lookupKey m k with
  | none => rfl
  | some v =>
    exfalso
    exact h ((lookupKey_isSome_iff_mem m k).mp (by rw [hl]; rfl))

theorem lookupKey_append {α : Type} (m1 m2 : List (String × α)) (k : String) :
    lookupKey (m1 ++ m2) k =
      match lookupKey m1 k with
      | some v => some v
      | none => lookupKey m2 k := by
  induction m1 with
  | nil => simp [lookupKey]
  | cons p tl ih =>
    by_cases hp : p.1 = k
    · simp [lookupKey, hp]
    · simp only [List.cons_append, lookupKey, if_neg hp]
      exact ih

theorem fillPersonal_preserves (ids : List String) (personal : List (String × String))
    (pid : String) (h : (lookupKey personal pid).isSome = true) :
    lookupKey (fillPersonal ids personal) pid = lookupKey personal pid := by
  induction ids generalizing personal with
  | nil => rfl
  | cons pid2 tl ih =>
    rw [fillPersonal]
    by_cases hS : (lookupKey personal pid2).isSome = true
    · rw [if_pos hS]
      exact ih personal h
    · rw [if_neg hS]
      have hlk : lookupKey (personal ++ [(pid2, "")]) pid = lookupKey personal pid := by
        rw [lookupKey_append]
        cases hl : lookupKey personal pid with
        | some v => rfl
        | none => rw [hl] at h; cases h
      rw [ih (personal ++ [(pid2, "")]) (by rw [hlk]; exact h), hlk]

theorem fillPersonal_mem (ids : List String) (personal : List (String × String))
    (pid : String) (h : pid ∈ ids) :
    lookupKey (fillPersonal ids personal) pid =
      some ((lookupKey personal pid).getD "") := by
  induction ids generalizing personal with
  | nil => cases h
  | cons pid2 tl ih =>
    rw [fillPersonal]
    rcases List.mem_cons.mp h with heq | htl
    · subst heq
      by_cases hS : (lookupKey personal pid).isSome = true
      · rw [if_pos hS]
        obtain ⟨v, hv⟩ := Option.isSome_iff_exists.mp hS
        rw [fillPersonal_preserves tl personal pid hS, hv]
        rfl
      · rw [if_neg hS]
        have hnone : lookupKey personal pid = none := by
          cases hl : lookupKey personal pid with
          | none => rfl
          | some v => rw [hl] at hS; exact absurd rfl hS
        have hlk : lookupKey (personal ++ [(pid, "")]) pid = some "" := by
          rw [lookupKey_append, hnone]
          simp [lookupKey]
        rw [fillPersonal_preserves tl _ pid (by rw [hlk]; rfl), hlk, hnone]
        rfl
    · by_cases hS : (lookupKey personal pid2).isSome = true
      · rw [if_pos hS]
        exact ih personal htl
      · rw [if_neg hS]
        rw [ih (personal ++ [(pid2, "")]) htl]
        have hlk : (lookupKey (personal ++ [(pid2, "")]) pid).getD "" =
            (lookupKey personal pid).getD "" := by
          rw [lookupKey_append]
          cases hl : lookupKey personal pid with
          | some v => rfl
          | none =>
            by_cases hpp : pid2 = pid
            · simp [lookupKey, hpp]
            · simp [lookupKey, hpp]
        rw [hlk]

/-- C7: normalization gives each required field a safe default: the
personal map holds an entry for every party id known to the state, the
existing entry when present and the empty string otherwise; an absent world
becomes the unchanged state world; an absent shari block becomes an update
with empty inventory maps, an empty cooldown map and the state location;
and the terminal flag, read with default false, is false when absent. -/
theorem normalize_gives_safe_defaults (state : GState) (result : GMResult) :
    (∀ pid ∈ partyIds state,
      lookupKey ((_normalize_result state result).personal.getD []) pid =
        some ((lookupKey (result.personal.getD []) pid).getD "")) ∧
    (result.world = none → (_normalize_result state result).world = some state.world) ∧
    (result.shari = none →
      ((_normalize_result state result).shari.getD ⟨none⟩).update =
        some { characterHurt := []
               currentLocation := lookupKey state.world "location"
               previousLocation := none
               notes := some ""
               inventory := some emptyInvDelta
               skillsCooldown := some [] }) ∧
    (result.is_final_turn = none → isFinalTurn (_normalize_result state result) = false) := by
  refine ⟨fun pid hmem => ?_, fun hw => ?_, fun hsh => ?_, fun hf => ?_⟩
  · exact fillPersonal_mem (partyIds state) (result.personal.getD []) pid hmem
  · simp [_normalize_result, hw]
  · simp [_normalize_result, hsh, emptyShariUpdate]
  · simp [_normalize_result, isFinalTurn, hf]

/-- Witness for C7 at the sample state and a result omitting every field:
member p1 gets the empty personal narration, the world is kept, and the
session is not terminal. -/
theorem normalize_gives_safe_defaults_witness :
    lookupKey ((_normalize_result samplePartyState sampleNormalResult).personal.getD [])
        "p1" = some "" ∧
    (_normalize_result samplePartyState sampleNormalResult).world =
      some samplePartyState.world ∧
    isFinalTurn (_normalize_result samplePartyState sampleNormalResult) = false := by
  have h := normalize_gives_safe_defaults samplePartyState sampleNormalResult
  refine ⟨?_, h.2.1 rfl, h.2.2.2 rfl⟩
  have h1 := h.1 "p1" (by decide)
  simpa using h1

/-! ## Claim theorems: world merge (C6) -/

/-- C6 counterexample: with state world location A and a normalized result
whose world delta sets location B, the merged world still holds A, because
normalization defaults shari.update.currentLocation to the old location and
the merge writes it back over the delta. -/
theorem world_delta_location_overwrite_counterexample :
    lookupKey (worldDeltaResult.world.getD worldStateA.world) "location" = some "B" ∧
    lookupKey (apply_gm_result_to_state worldStateA
        (_normalize_result worldStateA worldDeltaResult)).world "location" ≠ some "B" ∧
    lookupKey (apply_gm_result_to_state worldStateA
        (_normalize_result worldStateA worldDeltaResult)).world "location" = some "A" :=
  ⟨by decide, by decide, by decide⟩

/-- C6 as amended: applying a normalized result merges world keys other
than location and prev_location shallowly (present keys overwrite, absent
keys are preserved); the final location is the normalized
shari.update.currentLocation whenever that is truthy, which normalization
defaults to the pre-merge state location, undoing a location change of the
delta; prev_location is set from shari.update.previousLocation when that is
not None. -/
theorem world_merge_shallow_except_location (state : GState) (result : GMResult)
    (h : (keysOf (result.world.getD state.world)).Nodup) :
    (∀ k, k ≠ "location" → k ≠ "prev_location" →
      lookupKey (apply_gm_result_to_state state
          (_normalize_result state result)).world k =
        specWorldMergeLookup state result k) ∧
    (lookupKey (apply_gm_result_to_state state
        (_normalize_result state result)).world "location" =
      match (match (((result.shari.getD ⟨none⟩).update).getD
              emptyShariUpdate).currentLocation with
             | some c => some c
             | none => lookupKey state.world "location") with
      | some c =>
        if c = "" then specWorldMergeLookup state result "location" else some c
      | none => specWorldMergeLookup state result "location") ∧
    (lookupKey (apply_gm_result_to_state state
        (_normalize_result state result)).world "prev_location" =
      match (((result.shari.getD ⟨none⟩).update).getD
          emptyShariUpdate).previousLocation with
      | some p => some p
      | none => specWorldMergeLookup state result "prev_location") := by
  have hmerged : ∀ k, lookupKey (updateMap state.world (result.world.getD state.world)) k =
      specWorldMergeLookup state result k := by
    intro k
    rw [specWorldMergeLookup]
    exact lookupKey_updateMap state.world (result.world.getD state.world) k h
  have happly : (apply_gm_result_to_state state (_normalize_result state result)).world =
      (let w1 := updateMap state.world (result.world.getD state.world)
       let w2 :=
         match (match (((result.shari.getD ⟨none⟩).update).getD
                 emptyShariUpdate).currentLocation with
                | some c => some c
                | none => lookupKey state.world "location") with
         | some c => if c = "" then w1 else setKey w1 "location" c
         | none => w1
       match (((result.shari.getD ⟨none⟩).update).getD
           emptyShariUpdate).previousLocation with
       | some p => setKey w2 "prev_location" p
       | none => w2) := rfl
  rw [happly]
  cases hcur : (match (((result.shari.getD ⟨none⟩).update).getD
        emptyShariUpdate).currentLocation with
      | some c => some c
      | none => lookupKey state.world "location") with
  | some c =>
    dsimp only
    by_cases hce : c = ""
    · simp only [if_pos hce]
      cases hp : (((result.shari.getD ⟨none⟩).update).getD
          emptyShariUpdate).previousLocation with
      | some p =>
        refine ⟨fun k hk1 hk2 => ?_, ?_, ?_⟩
        · rw [lookupKey_setKey_ne _ _ _ _ hk2]
          exact hmerged k
        · rw [lookupKey_setKey_ne _ _ _ _ (by decide)]
          exact hmerged "location"
        · rw [lookupKey_setKey_self]
      | none =>
        exact ⟨fun k hk1 hk2 => hmerged k, hmerged "location", hmerged "prev_location"⟩
    · simp only [if_neg hce]
      cases hp : (((result.shari.getD ⟨none⟩).update).getD
          emptyShariUpdate).previousLocation with
      | some p =>
        refine ⟨fun k hk1 hk2 => ?_, ?_, ?_⟩
        · rw [lookupKey_setKey_ne _ _ _ _ hk2, lookupKey_setKey_ne _ _ _ _ hk1]
          exact hmerged k
        · rw [lookupKey_setKey_ne _ _ _ _ (by decide), lookupKey_setKey_self]
        · rw [lookupKey_setKey_self]
      | none =>
        refine ⟨fun k hk1 hk2 => ?_, ?_, ?_⟩
        · rw [lookupKey_setKey_ne _ _ _ _ hk1]
          exact hmerged k
        · rw [lookupKey_setKey_self]
        · rw [lookupKey_setKey_ne _ _ _ _ (by decide)]
          exact hmerged "prev_location"
  | none =>
    dsimp only
    cases hp : (((result.shari.getD ⟨none⟩).update).getD
        emptyShariUpdate).previousLocation with
    | some p =>
      refine ⟨fun k hk1 hk2 => ?_, ?_, ?_⟩
      · rw [lookupKey_setKey_ne _ _ _ _ hk2]
        exact hmerged k
      · rw [lookupKey_setKey_ne _ _ _ _ (by decide)]
        exact hmerged "location"
      · rw [lookupKey_setKey_self]
    | none =>
      exact ⟨fun k hk1 hk2 => hmerged k, hmerged "location", hmerged "prev_location"⟩

/-- Witness for C6 as amended: a key outside the delta of the concrete
counterexample state is preserved. -/
theorem world_merge_shallow_except_location_witness :
    lookupKey (apply_gm_result_to_state worldStateA
        (_normalize_result worldStateA worldDeltaResult)).world "time" = none := by
  have h := (world_merge_shallow_except_location worldStateA worldDeltaResult
    (by decide)).1 "time" (by decide) (by decide)
  rw [h]
  decide

/-! ## Claim theorems: inventory merge (C5) -/

theorem get?_set_self {α : Type} (l : List α) (i : Nat) (a : α) (h : i < l.length) :
    (l.set i a).get? i = some a := by
  induction l generalizing i with
  | nil => cases h
  | cons x tl ih =>
    cases i with
    | zero => rfl
    | succ n => exact ih n (Nat.lt_of_succ_lt_succ h)

theorem get?_set_ne {α : Type} (l : List α) (i j : Nat) (a : α) (h : i ≠ j) :
    (l.set i a).get? j = l.get? j := by
  induction l generalizing i j with
  | nil => rfl
  | cons x tl ih =>
    cases i with
    | zero =>
      cases j with
      | zero => exact absurd rfl h
      | succ m => rfl
    | succ n =>
      cases j with
      | zero => rfl
      | succ m => exact ih n m (fun hh => h (by rw [hh]))

theorem get?_lt_length {α : Type} (l : List α) (j : Nat) (a : α)
    (h : l.get? j = some a) : j < l.length := by
  induction l generalizing j with
  | nil => cases h
  | cons x tl ih =>
    cases j with
    | zero => exact Nat.succ_pos _
    | succ n => exact Nat.succ_lt_succ (ih n h)

theorem get?_mem {α : Type} (l : List α) (j : Nat) (a : α)
    (h : l.get? j = some a) : a ∈ l := by
  induction l generalizing j with
  | nil => cases h
  | cons x tl ih =>
    cases j with
    | zero => exact (Option.some.inj h) ▸ List.mem_cons_self x tl
    | succ n => exact List.mem_cons_of_mem x (ih n h)

theorem mem_exists_get? {α : Type} (l : List α) (a : α) (h : a ∈ l) :
    ∃ j, l.get? j = some a := by
  induction l with
  | nil => cases h
  | cons x tl ih =>
    rcases List.mem_cons.mp h with heq | htl
    · exact ⟨0, by rw [heq]; rfl⟩
    · obtain ⟨j, hj⟩ := ih htl
      exact ⟨j + 1, hj⟩

theorem partyIndexAux_not_mem (party : List PartyMember) (pid : String)
    (h : pid ∉ party.map PartyMember.id) :
    ∀ (base : Nat) (acc : Option Nat), partyIndexAux party pid base acc = acc := by
  induction party with
  | nil => intro base acc; rfl
  | cons q tl ih =>
    intro base acc
    simp only [List.map_cons, List.mem_cons] at h
    push_neg at h
    rw [partyIndexAux, if_neg (fun hh => h.1 hh.symm)]
    exact ih h.2 (base + 1) acc

theorem partyIndexAux_found (party : List PartyMember) (pid : String) :
    ∀ (j : Nat) (p : PartyMember), party.get? j = some p → p.id = pid →
    (party.map PartyMember.id).Nodup →
    ∀ (base : Nat) (acc : Option Nat), partyIndexAux party pid base acc = some (base + j) := by
  induction party with
  | nil => intro j p hj; cases hj
  | cons q tl ih =>
    intro j p hj hid hnodup base acc
    cases j with
    | zero =>
      have hq : q = p := Option.some.inj hj
      subst hq
      rw [partyIndexAux, if_pos hid]
      have hnot : pid ∉ tl.map PartyMember.id := by
        rw [← hid]
        exact (List.nodup_cons.mp hnodup).1
      rw [partyIndexAux_not_mem tl pid hnot (base + 1) (some base)]
      simp
    | succ n =>
      have hnd := List.nodup_cons.mp hnodup
      have hq : ¬ q.id = pid := by
        intro hh
        apply hnd.1
        rw [hh, ← hid]
        exact List.mem_map_of_mem PartyMember.id (get?_mem tl n p hj)
      rw [partyIndexAux, if_neg hq, ih n p hj hid hnd.2 (base + 1) acc]
      congr 1
      omega

theorem partyIndex_eq_of_get? (party : List PartyMember) (pid : String) (j : Nat)
    (p : PartyMember) (hj : party.get? j = some p) (hid : p.id = pid)
    (hnodup : (party.map PartyMember.id).Nodup) :
    partyIndex party pid = some j := by
  rw [partyIndex, partyIndexAux_found party pid j p hj hid hnodup 0 none]
  congr 1
  omega

theorem partyIndex_none_of_not_mem (party : List PartyMember) (pid : String)
    (h : pid ∉ party.map PartyMember.id) : partyIndex party pid = none :=
  partyIndexAux_not_mem party pid h 0 none

theorem partyIndex_inv (party : List PartyMember) (pid : String) (i : Nat)
    (hnodup : (party.map PartyMember.id).Nodup)
    (h : partyIndex party pid = some i) :
    ∃ q, party.get? i = some q ∧ q.id = pid := by
  by_cases hmem : pid ∈ party.map PartyMember.id
  · obtain ⟨q, hq, hqid⟩ := List.mem_map.mp hmem
    obtain ⟨j, hj⟩ := mem_exists_get? party q hq
    have := partyIndex_eq_of_get? party pid j q hj hqid hnodup
    rw [this] at h
    exact ⟨q, (Option.some.inj h) ▸ hj, hqid⟩
  · rw [partyIndex_none_of_not_mem party pid hmem] at h
    cases h

theorem map_set_same {α β : Type} (f : α → β) (l : List α) (i : Nat) (a : α)
    (h : ∀ b, l.get? i = some b → f a = f b) : (l.set i a).map f = l.map f := by
  induction l generalizing i with
  | nil => rfl
  | cons x tl ih =>
    cases i with
    | zero =>
      simp only [List.set, List.map_cons]
      rw [h x rfl]
    | succ n =>
      simp only [List.set, List.map_cons]
      rw [ih n (fun b hb => h b hb)]

theorem modifySheetAt_ids (party : List PartyMember) (pid : String) (f : Sheet → Sheet) :
    (modifySheetAt party pid f).map PartyMember.id = party.map PartyMember.id := by
  rw [modifySheetAt]
  cases hpi : partyIndex party pid with
  | none => rfl
  | some i =>
    dsimp only
    cases hg : party.get? i with
    | none => rfl
    | some p =>
      dsimp only
      exact map_set_same PartyMember.id party i _ (fun b hb => by
        rw [hg] at hb
        rw [← Option.some.inj hb])

theorem modifySheetAt_get?_eq (party : List PartyMember) (pid : String)
    (f : Sheet → Sheet) (j : Nat) (p : PartyMember)
    (hnodup : (party.map PartyMember.id).Nodup)
    (hj : party.get? j = some p) (hid : p.id = pid) :
    (modifySheetAt party pid f).get? j = some { p with sheet := f p.sheet } := by
  rw [modifySheetAt, partyIndex_eq_of_get? party pid j p hj hid hnodup]
  dsimp only
  rw [hj]
  exact get?_set_self party j _ (get?_lt_length party j p hj)

theorem modifySheetAt_get?_ne (party : List PartyMember) (pid : String)
    (f : Sheet → Sheet) (j : Nat) (p : PartyMember)
    (hnodup : (party.map PartyMember.id).Nodup)
    (hj : party.get? j = some p) (hid : p.id ≠ pid) :
    (modifySheetAt party pid f).get? j = some p := by
  rw [modifySheetAt]
  cases hpi : partyIndex party pid with
  | none => exact hj
  | some i =>
    dsimp only
    cases hg : party.get? i with
    | none => exact hj
    | some q =>
      dsimp only
      obtain ⟨q2, hq2, hq2id⟩ := partyIndex_inv party pid i hnodup hpi
      rw [hg] at hq2
      have hqq : q = q2 := Option.some.inj hq2
      subst hqq
      have hij : i ≠ j := by
        intro hh
        subst hh
        rw [hg] at hj
        exact hid ((Option.some.inj hj) ▸ hq2id)
      rw [get?_set_ne party i j _ hij]
      exact hj

theorem modify_fold_ids {β : Type} (g : β → Sheet → Sheet)
    (delta : List (String × β)) (pt : List PartyMember) :
    ((delta.foldl (fun pt' e => modifySheetAt pt' e.1 (g e.2)) pt).map PartyMember.id) =
      pt.map PartyMember.id := by
  induction delta generalizing pt with
  | nil => rfl
  | cons e tl ih =>
    rw [List.foldl_cons, ih, modifySheetAt_ids]

theorem modify_fold_get? {β : Type} (g : β → Sheet → Sheet)
    (delta : List (String × β)) (pt : List PartyMember) (j : Nat) (p : PartyMember)
    (hids : (pt.map PartyMember.id).Nodup) (hkeys : (delta.map Prod.fst).Nodup)
    (h : pt.get? j = some p) :
    (delta.foldl (fun pt' e => modifySheetAt pt' e.1 (g e.2)) pt).get? j =
      some (match lookupKey delta p.id with
            | some xs => { p with sheet := g xs p.sheet }
            | none => p) := by
  induction delta generalizing pt p with
  | nil => simpa [lookupKey] using h
  | cons e tl ih =>
    rw [List.foldl_cons]
    have hids' : ((modifySheetAt pt e.1 (g e.2)).map PartyMember.id).Nodup := by
      rw [modifySheetAt_ids]
      exact hids
    have hkeys' := (List.nodup_cons.mp hkeys).2
    by_cases hpk : p.id = e.1
    · have hstep := modifySheetAt_get?_eq pt e.1 (g e.2) j p hids h hpk
      rw [ih (modifySheetAt pt e.1 (g e.2)) { p with sheet := g e.2 p.sheet } hids'
        hkeys' hstep]
      have hnot : lookupKey tl p.id = none := by
        apply lookupKey_eq_none_of_not_mem
        rw [hpk]
        exact (List.nodup_cons.mp hkeys).1
      simp only [lookupKey, if_pos hpk.symm]
      rw [hnot]
    · have hstep := modifySheetAt_get?_ne pt e.1 (g e.2) j p hids h hpk
      rw [ih (modifySheetAt pt e.1 (g e.2)) p hids' hkeys' hstep]
      simp only [lookupKey, if_neg (fun hh : e.1 = p.id => hpk hh.symm)]

theorem applyPartyChange_ids (pt : List PartyMember) (ch : PartyChange) :
    (applyPartyChange pt ch).map PartyMember.id = pt.map PartyMember.id := by
  rw [applyPartyChange]
  cases hpi : partyIndex pt ch.id with
  | none => rfl
  | some i =>
    dsimp only
    cases hg : pt.get? i with
    | none => rfl
    | some pm =>
      dsimp only
      exact map_set_same PartyMember.id pt i _ (fun b hb => by
        rw [hg] at hb
        rw [← Option.some.inj hb])

theorem applyPartyChange_fold_ids (chs : List PartyChange) (pt : List PartyMember) :
    ((chs.foldl applyPartyChange pt).map PartyMember.id) = pt.map PartyMember.id := by
  induction chs generalizing pt with
  | nil => rfl
  | cons ch tl ih =>
    rw [List.foldl_cons, ih, applyPartyChange_ids]

theorem applyPartyChange_fold_fields (chs : List PartyChange) (pt : List PartyMember)
    (j : Nat) (p : PartyMember) (h : pt.get? j = some p) :
    ∃ q, (chs.foldl applyPartyChange pt).get? j = some q ∧
      q.id = p.id ∧ q.name = p.name ∧ q.role = p.role ∧ q.memory = p.memory ∧
      q.sheet.items = p.sheet.items ∧ q.sheet.spells = p.sheet.spells := by
  induction chs generalizing pt p with
  | nil => exact ⟨p, h, rfl, rfl, rfl, rfl, rfl, rfl⟩
  | cons ch tl ih =>
    rw [List.foldl_cons]
    have hstep : ∃ q, (applyPartyChange pt ch).get? j = some q ∧
        q.id = p.id ∧ q.name = p.name ∧ q.role = p.role ∧ q.memory = p.memory ∧
        q.sheet.items = p.sheet.items ∧ q.sheet.spells = p.sheet.spells := by
      rw [applyPartyChange]
      cases hpi : partyIndex pt ch.id with
      | none => exact ⟨p, h, rfl, rfl, rfl, rfl, rfl, rfl⟩
      | some i =>
        dsimp only
        cases hg : pt.get? i with
        | none => exact ⟨p, h, rfl, rfl, rfl, rfl, rfl, rfl⟩
        | some pm =>
          dsimp only
          by_cases hij : i = j
          · subst hij
            have hpm : pm = p := by
              rw [h] at hg
              exact (Option.some.inj hg).symm
            subst hpm
            cases ch.hp <;> cases ch.status <;>
              exact ⟨_, get?_set_self pt i _ (get?_lt_length pt i pm h),
                rfl, rfl, rfl, rfl, rfl, rfl⟩
          · refine ⟨p, ?_, rfl, rfl, rfl, rfl, rfl, rfl⟩
            rw [get?_set_ne pt i j _ hij]
            exact h
    obtain ⟨q, hq, hqid, hqname, hqrole, hqmem, hqitems, hqspells⟩ := hstep
    obtain ⟨q2, hq2, h2id, h2name, h2role, h2mem, h2items, h2spells⟩ := ih _ q hq
    exact ⟨q2, hq2, h2id.trans hqid, h2name.trans hqname, h2role.trans hqrole,
      h2mem.trans hqmem, h2items.trans hqitems, h2spells.trans hqspells⟩

theorem filterConsumed_nil (l : List InvEntry) : filterConsumed [] l = l := by
  induction l with
  | nil => rfl
  | cons e tl ih =>
    have hc : (! (([] : List String).contains e.entryName)) = true := rfl
    simp only [filterConsumed, List.filter, hc] at ih ⊢
    rw [ih]

theorem applyCharges_nil (l : List InvEntry) : applyCharges [] l = l := by
  induction l with
  | nil => rfl
  | cons e tl ih =>
    cases e with
    | plain s => simp only [applyCharges, List.map] at ih ⊢; rw [ih]
    | obj n ch rest => simp only [applyCharges, List.map, lookupKey] at ih ⊢; rw [ih]

theorem applyCharges_no_match (delta : List (String × Int)) (l : List InvEntry)
    (h : ∀ e ∈ l, lookupKey delta e.entryName = none) : applyCharges delta l = l := by
  induction l with
  | nil => rfl
  | cons e tl ih =>
    have hh := h e (List.mem_cons_self e tl)
    have htl := ih (fun e2 he2 => h e2 (List.mem_cons_of_mem e he2))
    cases e with
    | plain s =>
      simp only [applyCharges, List.map] at htl ⊢
      rw [htl]
    | obj n ch rest =>
      simp only [applyCharges, List.map] at htl ⊢
      simp only [InvEntry.entryName] at hh
      rw [hh, htl]

/-- C5: for each party member of the state, the merged member at the same
position keeps its id, name, role and memory, its items are the original
items with the consumed names removed and the added entries appended, then
charge deltas applied; its spells are the original spells with the consumed
names removed and the charge deltas applied; a member mentioned by no part
of the inventory delta keeps items and spells unchanged; and a charge delta
matching no name of a list is a no-op on it. -/
theorem inventory_delta_per_member (state : GState) (result : GMResult)
    (j : Nat) (p : PartyMember)
    (hids : (state.party.map PartyMember.id).Nodup)
    (hp : state.party.get? j = some p)
    (hc : ((invOf result).consumed.map Prod.fst).Nodup)
    (ha : ((invOf result).added.map Prod.fst).Nodup)
    (hch : ((invOf result).charges.map Prod.fst).Nodup) :
    (∃ q, (apply_gm_result_to_state state result).party.get? j = some q ∧
      q.id = p.id ∧ q.name = p.name ∧ q.role = p.role ∧ q.memory = p.memory ∧
      q.sheet.items =
        applyCharges (chargesFor result p.id)
          (filterConsumed (consumedFor result p.id) p.sheet.items ++
            addedFor result p.id) ∧
      q.sheet.spells =
        applyCharges (chargesFor result p.id)
          (filterConsumed (consumedFor result p.id) p.sheet.spells) ∧
      (lookupKey (invOf result).consumed p.id = none →
       lookupKey (invOf result).added p.id = none →
       lookupKey (invOf result).charges p.id = none →
       q.sheet.items = p.sheet.items ∧ q.sheet.spells = p.sheet.spells)) ∧
    (∀ (delta : List (String × Int)) (l : List InvEntry),
      (∀ e ∈ l, lookupKey delta e.entryName = none) → applyCharges delta l = l) := by
  refine ⟨?_, applyCharges_no_match⟩
  have hparty : (apply_gm_result_to_state state result).party =
      (invOf result).charges.foldl (fun pt e => modifySheetAt pt e.1 (gCharges e.2))
        ((invOf result).added.foldl (fun pt e => modifySheetAt pt e.1 (gAdded e.2))
          ((invOf result).consumed.foldl
            (fun pt e => modifySheetAt pt e.1 (gConsumed e.2))
            ((result.party.getD []).foldl applyPartyChange state.party))) := rfl
  obtain ⟨q1, hq1, h1id, h1name, h1role, h1mem, h1items, h1spells⟩ :=
    applyPartyChange_fold_fields (result.party.getD []) state.party j p hp
  have hids1 : (((result.party.getD []).foldl applyPartyChange
      state.party).map PartyMember.id).Nodup := by
    rw [applyPartyChange_fold_ids]
    exact hids
  have hq2 := modify_fold_get? gConsumed (invOf result).consumed _ j q1 hids1 hc hq1
  have hids2 : (((invOf result).consumed.foldl
      (fun pt e => modifySheetAt pt e.1 (gConsumed e.2))
      ((result.party.getD []).foldl applyPartyChange state.party)).map
        PartyMember.id).Nodup := by
    rw [modify_fold_ids]
    exact hids1
  -- the member after the consumed phase, with a uniform description
  have hstep2 : ∃ q2, ((invOf result).consumed.foldl
        (fun pt e => modifySheetAt pt e.1 (gConsumed e.2))
        ((result.party.getD []).foldl applyPartyChange state.party)).get? j = some q2 ∧
      q2.id = q1.id ∧ q2.name = q1.name ∧ q2.role = q1.role ∧ q2.memory = q1.memory ∧
      q2.sheet.items = filterConsumed (consumedFor result q1.id) q1.sheet.items ∧
      q2.sheet.spells = filterConsumed (consumedFor result q1.id) q1.sheet.spells := by
    cases hlc : lookupKey (invOf result).consumed q1.id with
    | some xs =>
      rw [hlc] at hq2
      exact ⟨_, hq2, rfl, rfl, rfl, rfl,
        by simp [gConsumed, consumedFor, hlc], by simp [gConsumed, consumedFor, hlc]⟩
    | none =>
      rw [hlc] at hq2
      exact ⟨q1, hq2, rfl, rfl, rfl, rfl,
        by simp [consumedFor, hlc, filterConsumed_nil],
        by simp [consumedFor, hlc, filterConsumed_nil]⟩
  obtain ⟨q2, hq2', h2id, h2name, h2role, h2mem, h2items, h2spells⟩ := hstep2
  have hq3 := modify_fold_get? gAdded (invOf result).added _ j q2 hids2 ha hq2'
  have hids3 : (((invOf result).added.foldl
      (fun pt e => modifySheetAt pt e.1 (gAdded e.2))
      ((invOf result).consumed.foldl
        (fun pt e => modifySheetAt pt e.1 (gConsumed e.2))
        ((result.party.getD []).foldl applyPartyChange state.party))).map
          PartyMember.id).Nodup := by
    rw [modify_fold_ids]
    exact hids2
  have hstep3 : ∃ q3, ((invOf result).added.foldl
        (fun pt e => modifySheetAt pt e.1 (gAdded e.2))
        ((invOf result).consumed.foldl
          (fun pt e => modifySheetAt pt e.1 (gConsumed e.2))
          ((result.party.getD []).foldl applyPartyChange state.party))).get? j =
          some q3 ∧
      q3.id = q2.id ∧ q3.name = q2.name ∧ q3.role = q2.role ∧ q3.memory = q2.memory ∧
      q3.sheet.items = q2.sheet.items ++ addedFor result q2.id ∧
      q3.sheet.spells = q2.sheet.spells := by
    cases hla : lookupKey (invOf result).added q2.id with
    | some xs =>
      rw [hla] at hq3
      exact ⟨_, hq3, rfl, rfl, rfl, rfl,
        by simp [gAdded, addedFor, hla], by simp [gAdded]⟩
    | none =>
      rw [hla] at hq3
      exact ⟨q2, hq3, rfl, rfl, rfl, rfl, by simp [addedFor, hla], rfl⟩
  obtain ⟨q3, hq3', h3id, h3name, h3role, h3mem, h3items, h3spells⟩ := hstep3
  have hq4 := modify_fold_get? gCharges (invOf result).charges _ j q3 hids3 hch hq3'
  have hstep4 : ∃ q4, ((invOf result).charges.foldl
        (fun pt e => modifySheetAt pt e.1 (gCharges e.2))
        ((invOf result).added.foldl
          (fun pt e => modifySheetAt pt e.1 (gAdded e.2))
          ((invOf result).consumed.foldl
            (fun pt e => modifySheetAt pt e.1 (gConsumed e.2))
            ((result.party.getD []).foldl applyPartyChange state.party)))).get? j =
          some q4 ∧
      q4.id = q3.id ∧ q4.name = q3.name ∧ q4.role = q3.role ∧ q4.memory = q3.memory ∧
      q4.sheet.items = applyCharges (chargesFor result q3.id) q3.sheet.items ∧
      q4.sheet.spells = applyCharges (chargesFor result q3.id) q3.sheet.spells := by
    cases hlch : lookupKey (invOf result).charges q3.id with
    | some xs =>
      rw [hlch] at hq4
      exact ⟨_, hq4, rfl, rfl, rfl, rfl,
        by simp [gCharges, chargesFor, hlch], by simp [gCharges, chargesFor, hlch]⟩
    | none =>
      rw [hlch] at hq4
      exact ⟨q3, hq4, rfl, rfl, rfl, rfl,
        by simp [chargesFor, hlch, applyCharges_nil],
        by simp [chargesFor, hlch, applyCharges_nil]⟩
  obtain ⟨q4, hq4', h4id, h4name, h4role, h4mem, h4items, h4spells⟩ := hstep4
  have hidp : q3.id = p.id := h3id.trans (h2id.trans h1id)
  have hid2p : q2.id = p.id := h2id.trans h1id
  have hid1p : q1.id = p.id := h1id
  refine ⟨q4, by rw [hparty]; exact hq4', h4id.trans hidp, ?_, ?_, ?_, ?_, ?_, ?_⟩
  · exact h4name.trans (h3name.trans (h2name.trans h1name))
  · exact h4role.trans (h3role.trans (h2role.trans h1role))
  · exact h4mem.trans (h3mem.trans (h2mem.trans h1mem))
  · rw [h4items, hidp, h3items, hid2p, h2items, hid1p, h1items]
  · rw [h4spells, hidp, h3spells, h2spells, hid1p, h1spells]
  · intro hnc hna hnch
    constructor
    · rw [h4items, hidp, h3items, hid2p, h2items, hid1p, h1items]
      rw [consumedFor, hnc, addedFor, hna, chargesFor, hnch]
      simp [filterConsumed_nil, applyCharges_nil]
    · rw [h4spells, hidp, h3spells, h2spells, hid1p, h1spells]
      rw [consumedFor, hnc, chargesFor, hnch]
      simp [filterConsumed_nil, applyCharges_nil]

/-- Witness for C5 at the spec example: member p1 with items rope and
dagger and the light spell at charges 3, under a delta consuming the rope,
adding a gold coin and draining one light charge, ends with items dagger
then gold coin and the light spell at charges 2, all other fields kept. -/
theorem inventory_delta_per_member_witness :
    ∃ q, (apply_gm_result_to_state samplePartyState sampleInvResult).party.get? 0 =
        some q ∧
      q.id = "p1" ∧ q.name = "엘라" ∧
      q.sheet.items = [.plain "dagger", .plain "gold coin"] ∧
      q.sheet.spells = [.obj "light" (some 2) []] := by
  obtain ⟨q, hq, hid, hname, _, _, hitems, hspells, _⟩ :=
    (inventory_delta_per_member samplePartyState sampleInvResult 0 sampleMember
      (by decide) (by decide) (by decide) (by decide) (by decide)).1
  refine ⟨q, hq, ?_, ?_, ?_, ?_⟩
  · rw [hid]; rfl
  · rw [hname]; rfl
  · rw [hitems]; decide
  · rw [hspells]; decide

/-! ## Claim theorems: serialization round trip (C10) -/

theorem digitChar_toNat (d : Nat) (h : d < 10) : (digitChar d).toNat = 48 + d := by
  interval_cases d <;> decide

theorem digitChar_isDigit (d : Nat) (h : d < 10) : (digitChar d).isDigit = true := by
  interval_cases d <;> decide

theorem natToCharsAux_eq (n : Nat) : ∀ (fuel : Nat) (acc : List Char), n < fuel →
    natToCharsAux fuel n acc = natToChars n ++ acc := by
  induction n using Nat.strong_induction_on with
  | _ n ih =>
    intro fuel acc hf
    cases fuel with
    | zero => omega
    | succ f =>
      by_cases h10 : n < 10
      · rw [natToCharsAux, if_pos h10, natToChars, natToCharsAux, if_pos h10]
        rfl
      · have hd : n / 10 < n := Nat.div_lt_self (by omega) (by omega)
        rw [natToCharsAux, if_neg h10, ih (n / 10) hd f _ (by omega)]
        have hnt : natToChars n = natToChars (n / 10) ++ [digitChar (n % 10)] := by
          rw [natToChars, natToCharsAux, if_neg h10, ih (n / 10) hd n _ hd]
        rw [hnt, List.append_assoc]
        rfl

theorem natToChars_step (n : Nat) (h : ¬ n < 10) :
    natToChars n = natToChars (n / 10) ++ [digitChar (n % 10)] := by
  have hd : n / 10 < n := Nat.div_lt_self (by omega) (by omega)
  rw [natToChars, natToCharsAux, if_neg h, natToCharsAux_eq (n / 10) n _ hd]

theorem natToChars_small (n : Nat) (h : n < 10) : natToChars n = [digitChar n] := by
  rw [natToChars, natToCharsAux, if_pos h]

theorem natToChars_digits (n : Nat) : ∀ c ∈ natToChars n, c.isDigit = true := by
  induction n using Nat.strong_induction_on with
  | _ n ih =>
    by_cases h10 : n < 10
    · rw [natToChars_small n h10]
      intro c hc
      rw [List.mem_singleton.mp hc]
      exact digitChar_isDigit n h10
    · rw [natToChars_step n h10]
      intro c hc
      rcases List.mem_append.mp hc with h1 | h2
      · exact ih (n / 10) (Nat.div_lt_self (by omega) (by omega)) c h1
      · rw [List.mem_singleton.mp h2]
        exact digitChar_isDigit (n % 10) (Nat.mod_lt n (by omega))

theorem natToChars_ne_nil (n : Nat) : natToChars n ≠ [] := by
  by_cases h10 : n < 10
  · rw [natToChars_small n h10]
    simp
  · rw [natToChars_step n h10]
    simp

theorem natToChars_head (n : Nat) :
    ∃ c cs, natToChars n = c :: cs ∧ c.isDigit = true := by
  cases hh : natToChars n with
  | nil => exact absurd hh (natToChars_ne_nil n)
  | cons c cs =>
    refine ⟨c, cs, rfl, ?_⟩
    have := natToChars_digits n c (by rw [hh]; exact List.mem_cons_self c cs)
    exact this

theorem charsToNat_natToChars (n : Nat) : ∀ acc : Nat,
    charsToNat (natToChars n) acc = acc * 10 ^ (natToChars n).length + n := by
  induction n using Nat.strong_induction_on with
  | _ n ih =>
    intro acc
    by_cases h10 : n < 10
    · rw [natToChars_small n h10]
      simp [charsToNat, digitChar_toNat n h10]
    · rw [natToChars_step n h10]
      have hd : n / 10 < n := Nat.div_lt_self (by omega) (by omega)
      rw [charsToNat, List.foldl_append, ← charsToNat, ← charsToNat,
        ih (n / 10) hd acc]
      simp [charsToNat, digitChar_toNat (n % 10) (Nat.mod_lt n (by omega))]
      rw [pow_succ]
      have hmod := Nat.div_add_mod n 10
      have hexp : (acc * 10 ^ (natToChars (n / 10)).length + n / 10) * 10 + n % 10 =
          acc * (10 ^ (natToChars (n / 10)).length * 10) + (n / 10 * 10 + n % 10) := by
        ring
      rw [hexp]
      congr 1
      omega

theorem charsToNat_natToChars_zero (n : Nat) : charsToNat (natToChars n) 0 = n := by
  rw [charsToNat_natToChars n 0]
  simp

theorem parseNat_append (cs : List Char) : ∀ (acc : Nat) (rest : List Char),
    (∀ c ∈ cs, c.isDigit = true) → ¬ digitStart rest →
    parseNat (cs ++ rest) acc = (charsToNat cs acc, rest) := by
  induction cs with
  | nil =>
    intro acc rest _ hrest
    cases rest with
    | nil => rfl
    | cons c r =>
      rw [List.nil_append, parseNat,
        if_neg (show ¬ c.isDigit = true from fun hh => hrest hh)]
      rfl
  | cons c tl ih =>
    intro acc rest hdig hrest
    rw [List.cons_append, parseNat, if_pos (hdig c (List.mem_cons_self c tl)),
      ih _ rest (fun x hx => hdig x (List.mem_cons_of_mem c hx)) hrest]
    rfl

theorem parseStringBody_escape (cs : List Char) (rest : List Char) :
    parseStringBody (escapeString cs ++ '"' :: rest) = some (cs, rest) := by
  induction cs with
  | nil =>
    show parseStringBody ('"' :: rest) = some ([], rest)
    rw [parseStringBody.eq_def]
    dsimp only
    rw [if_pos rfl]
  | cons c tl ih =>
    rw [escapeString, List.append_assoc]
    by_cases hc : c = '"' ∨ c = '\\'
    · rw [escapeChar, if_pos hc, List.cons_append, List.cons_append, List.nil_append,
        parseStringBody.eq_def]
      dsimp only
      rw [if_neg (by decide), if_pos rfl]
      rw [ih]
      rfl
    · push_neg at hc
      rw [escapeChar, if_neg (by
        intro hh
        rcases hh with h1 | h2
        · exact hc.1 h1
        · exact hc.2 h2), List.cons_append, List.nil_append, parseStringBody.eq_def]
      dsimp only
      rw [if_neg hc.1, if_neg hc.2, ih]
      rfl

theorem sizeV_pos (v : Json) : 1 ≤ sizeV v := by
  cases v <;> simp [sizeV]

theorem sizeL_pos (xs : List Json) : 1 ≤ sizeL xs := by
  cases xs <;> simp [sizeL]

theorem sizeM_pos (ms : List (String × Json)) : 1 ≤ sizeM ms := by
  cases ms <;> simp [sizeM]

theorem isDigit_ne_literals (c : Char) (h : c.isDigit = true) :
    c ≠ 'n' ∧ c ≠ 't' ∧ c ≠ 'f' ∧ c ≠ '"' ∧ c ≠ '[' ∧ c ≠ '{' ∧ c ≠ '-' ∧
    c ≠ ']' ∧ c ≠ '}' ∧ c ≠ ',' ∧ c ≠ ' ' :=
  ⟨fun hh => absurd (hh ▸ h) (by decide), fun hh => absurd (hh ▸ h) (by decide),
   fun hh => absurd (hh ▸ h) (by decide), fun hh => absurd (hh ▸ h) (by decide),
   fun hh => absurd (hh ▸ h) (by decide), fun hh => absurd (hh ▸ h) (by decide),
   fun hh => absurd (hh ▸ h) (by decide), fun hh => absurd (hh ▸ h) (by decide),
   fun hh => absurd (hh ▸ h) (by decide), fun hh => absurd (hh ▸ h) (by decide),
   fun hh => absurd (hh ▸ h) (by decide)⟩

theorem dumpsChars_head (v : Json) :
    ∃ c cs, dumpsChars v = c :: cs ∧ c ≠ ']' ∧ c ≠ '}' := by
  cases v with
  | null => exact ⟨'n', _, rfl, by decide, by decide⟩
  | bool b => cases b with
    | true => exact ⟨'t', _, rfl, by decide, by decide⟩
    | false => exact ⟨'f', _, rfl, by decide, by decide⟩
  | num n =>
    show ∃ c cs, intToChars n = c :: cs ∧ c ≠ ']' ∧ c ≠ '}'
    rw [intToChars]
    by_cases hneg : n < 0
    · rw [if_pos hneg]
      exact ⟨'-', _, rfl, by decide, by decide⟩
    · rw [if_neg hneg]
      obtain ⟨c, cs, hc, hd⟩ := natToChars_head n.toNat
      have hne := isDigit_ne_literals c hd
      exact ⟨c, cs, hc, hne.2.2.2.2.2.2.2.1, hne.2.2.2.2.2.2.2.2.1⟩
  | str s => exact ⟨'"', _, rfl, by decide, by decide⟩
  | arr xs => exact ⟨'[', _, rfl, by decide, by decide⟩
  | obj ms => exact ⟨'{', _, rfl, by decide, by decide⟩

mutual

theorem sizeV_le_len : ∀ v : Json, sizeV v ≤ 2 * (dumpsChars v).length
  | .null => by simp [sizeV, dumpsChars]
  | .bool b => by cases b <;> simp [sizeV, dumpsChars]
  | .num n => by
    have hlen : 1 ≤ (dumpsChars (Json.num n)).length := by
      rw [dumpsChars, intToChars]
      by_cases hneg : n < 0
      · rw [if_pos hneg]
        simp
      · rw [if_neg hneg]
        obtain ⟨c, cs, hc, _⟩ := natToChars_head n.toNat
        rw [hc]
        simp
    have : sizeV (Json.num n) = 1 := rfl
    omega
  | .str s => by
    rw [dumpsChars]
    have : sizeV (Json.str s) = 1 := rfl
    simp only [List.length_cons]
    omega
  | .arr xs =>
    match xs with
    | [] => by
      have h1 : sizeV (Json.arr []) = 2 := rfl
      have h2 : (dumpsChars (Json.arr [])).length = 2 := rfl
      omega
    | x :: tl => by
      have h := sizeL_le_len (x :: tl) (by simp)
      have h1 : sizeV (Json.arr (x :: tl)) = sizeL (x :: tl) + 1 := rfl
      have h2 : (dumpsChars (Json.arr (x :: tl))).length =
          (dumpsArr (x :: tl)).length + 2 := by
        rw [dumpsChars]
        simp
      omega
  | .obj ms =>
    match ms with
    | [] => by
      have h1 : sizeV (Json.obj []) = 2 := rfl
      have h2 : (dumpsChars (Json.obj [])).length = 2 := rfl
      omega
    | m :: tl => by
      have h := sizeM_le_len (m :: tl) (by simp)
      have h1 : sizeV (Json.obj (m :: tl)) = sizeM (m :: tl) + 1 := rfl
      have h2 : (dumpsChars (Json.obj (m :: tl))).length =
          (dumpsObj (m :: tl)).length + 2 := by
        rw [dumpsChars]
        simp
      omega

theorem sizeL_le_len : ∀ xs : List Json, xs ≠ [] →
    sizeL xs ≤ 2 * (dumpsArr xs).length + 3
  | [x], _ => by
    have h := sizeV_le_len x
    have h1 : sizeL [x] = sizeV x + 2 := rfl
    have h2 : (dumpsArr [x]).length = (dumpsChars x).length := rfl
    omega
  | x :: y :: tl, _ => by
    have hx := sizeV_le_len x
    have htl := sizeL_le_len (y :: tl) (by simp)
    have h1 : sizeL (x :: y :: tl) = sizeV x + sizeL (y :: tl) + 1 := rfl
    have h2 : (dumpsArr (x :: y :: tl)).length =
        (dumpsChars x).length + (dumpsArr (y :: tl)).length + 2 := by
      rw [dumpsArr]
      simp
      omega
    omega

theorem sizeM_le_len : ∀ ms : List (String × Json), ms ≠ [] →
    sizeM ms ≤ 2 * (dumpsObj ms).length + 3
  | [(k, v)], _ => by
    have h := sizeV_le_len v
    have h1 : sizeM [(k, v)] = sizeV v + 2 := rfl
    have h2 : (dumpsObj [(k, v)]).length =
        (escapeString k.data).length + (dumpsChars v).length + 4 := by
      rw [dumpsObj]
      simp
      omega
    omega
  | (k, v) :: m2 :: tl, _ => by
    have hv := sizeV_le_len v
    have htl := sizeM_le_len (m2 :: tl) (by simp)
    have h1 : sizeM ((k, v) :: m2 :: tl) = sizeV v + sizeM (m2 :: tl) + 1 := rfl
    have h2 : (dumpsObj ((k, v) :: m2 :: tl)).length =
        (escapeString k.data).length + (dumpsChars v).length +
          (dumpsObj (m2 :: tl)).length + 6 := by
      rw [dumpsObj]
      simp
      omega
    omega

end

theorem parseVal_cons (f : Nat) (c : Char) (rest : List Char) :
    parseVal (f + 1) (c :: rest) =
      (if c = 'n' then
        match rest with
        | 'u' :: 'l' :: 'l' :: r => some (.null, r)
        | _ => none
      else if c = 't' then
        match rest with
        | 'r' :: 'u' :: 'e' :: r => some (.bool true, r)
        | _ => none
      else if c = 'f' then
        match rest with
        | 'a' :: 'l' :: 's' :: 'e' :: r => some (.bool false, r)
        | _ => none
      else if c = '"' then
        (parseStringBody rest).map (fun p => (Json.str ⟨p.1⟩, p.2))
      else if c = '[' then
        match rest with
        | [] => none
        | c2 :: rest2 =>
          if c2 = ']' then some (.arr [], rest2)
          else (parseElems f (c2 :: rest2)).map (fun p => (Json.arr p.1, p.2))
      else if c = '{' then
        match rest with
        | [] => none
        | c2 :: rest2 =>
          if c2 = '}' then some (.obj [], rest2)
          else (parseMembers f (c2 :: rest2)).map (fun p => (Json.obj p.1, p.2))
      else if c = '-' then
        match rest with
        | [] => none
        | d :: rest2 =>
          if d.isDigit then
            some (Json.num (-(((parseNat rest2 (d.toNat - 48)).1 : Nat) : Int)),
              (parseNat rest2 (d.toNat - 48)).2)
          else none
      else if c.isDigit then
        some (Json.num (((parseNat rest (c.toNat - 48)).1 : Nat) : Int),
          (parseNat rest (c.toNat - 48)).2)
      else none) := rfl

theorem parseElems_succ (f : Nat) (cs : List Char) :
    parseElems (f + 1) cs =
      (match parseVal f cs with
      | none => none
      | some (v, rest) =>
        match rest with
        | ',' :: ' ' :: r2 => (parseElems f r2).map (fun p => (v :: p.1, p.2))
        | ']' :: r2 => some ([v], r2)
        | _ => none) := rfl

theorem parseMembers_succ (f : Nat) (cs : List Char) :
    parseMembers (f + 1) cs =
      (match cs with
      | '"' :: rest =>
        match parseStringBody rest with
        | none => none
        | some (k, r1) =>
          match r1 with
          | ':' :: ' ' :: r2 =>
            match parseVal f r2 with
            | none => none
            | some (v, r3) =>
              match r3 with
              | ',' :: ' ' :: r4 => (parseMembers f r4).map (fun p => ((⟨k⟩, v) :: p.1, p.2))
              | '}' :: r4 => some ([(⟨k⟩, v)], r4)
              | _ => none
          | _ => none
      | _ => none) := rfl

set_option maxHeartbeats 1000000 in
theorem parse_round (fuel : Nat) :
    (∀ v rest, sizeV v ≤ fuel → (∀ n, v = Json.num n → ¬ digitStart rest) →
      parseVal fuel (dumpsChars v ++ rest) = some (v, rest)) ∧
    (∀ xs rest, xs ≠ [] → sizeL xs ≤ fuel →
      parseElems fuel (dumpsArr xs ++ ']' :: rest) = some (xs, rest)) ∧
    (∀ ms rest, ms ≠ [] → sizeM ms ≤ fuel →
      parseMembers fuel (dumpsObj ms ++ '}' :: rest) = some (ms, rest)) := by
  induction fuel with
  | zero =>
    refine ⟨fun v rest hs _ => ?_, fun xs rest _ hs => ?_, fun ms rest _ hs => ?_⟩
    · have := sizeV_pos v
      omega
    · have := sizeL_pos xs
      omega
    · have := sizeM_pos ms
      omega
  | succ f ih =>
    obtain ⟨ihV, ihL, ihM⟩ := ih
    refine ⟨fun v rest hs hnum => ?_, fun xs rest hne hs => ?_, fun ms rest hne hs => ?_⟩
    · cases v with
      | null => rfl
      | bool b => cases b <;> rfl
      | num n =>
        cases n with
        | ofNat m =>
          have hi : dumpsChars (Json.num (Int.ofNat m)) = natToChars m := by
            rw [dumpsChars, intToChars,
              if_neg (show ¬ Int.ofNat m < 0 from Int.not_lt.mpr (Int.ofNat_nonneg m))]
            rfl
          obtain ⟨c, cs, hc, hcd⟩ := natToChars_head m
          have hcs_dig : ∀ x ∈ cs, x.isDigit = true := fun x hx =>
            natToChars_digits m x (by rw [hc]; exact List.mem_cons_of_mem c hx)
          have hne2 := isDigit_ne_literals c hcd
          rw [hi, hc, List.cons_append, parseVal_cons]
          rw [if_neg hne2.1, if_neg hne2.2.1, if_neg hne2.2.2.1, if_neg hne2.2.2.2.1,
            if_neg hne2.2.2.2.2.1, if_neg hne2.2.2.2.2.2.1,
            if_neg hne2.2.2.2.2.2.2.1, if_pos hcd]
          rw [parseNat_append cs (c.toNat - 48) rest hcs_dig
            (hnum (Int.ofNat m) rfl)]
          have hval : charsToNat cs (c.toNat - 48) = m := by
            have h0 := charsToNat_natToChars_zero m
            rw [hc, charsToNat, List.foldl_cons] at h0
            rw [charsToNat]
            simpa using h0
          dsimp only
          rw [hval]
          rfl
        | negSucc k =>
          have hi : dumpsChars (Json.num (Int.negSucc k)) = '-' :: natToChars (k + 1) := by
            rw [dumpsChars, intToChars, if_pos (Int.negSucc_lt_zero k)]
            rfl
          obtain ⟨d, ds, hd, hdd⟩ := natToChars_head (k + 1)
          have hds_dig : ∀ x ∈ ds, x.isDigit = true := fun x hx =>
            natToChars_digits (k + 1) x (by rw [hd]; exact List.mem_cons_of_mem d hx)
          rw [hi, List.cons_append, hd, List.cons_append, parseVal_cons]
          rw [if_neg (by decide), if_neg (by decide), if_neg (by decide),
            if_neg (by decide), if_neg (by decide), if_neg (by decide), if_pos rfl]
          dsimp only
          rw [if_pos hdd]
          rw [parseNat_append ds (d.toNat - 48) rest hds_dig
            (hnum (Int.negSucc k) rfl)]
          have hval : charsToNat ds (d.toNat - 48) = k + 1 := by
            have h0 := charsToNat_natToChars_zero (k + 1)
            rw [hd, charsToNat, List.foldl_cons] at h0
            rw [charsToNat]
            simpa using h0
          dsimp only
          rw [hval]
          have hneg : (-(((k + 1 : Nat) : Int))) = Int.negSucc k := by
            rw [Int.negSucc_eq]
            push_cast
            ring
          rw [hneg]
      | str s =>
        rw [dumpsChars, List.cons_append, List.append_assoc, List.singleton_append,
          parseVal_cons]
        rw [if_neg (by decide), if_neg (by decide), if_neg (by decide), if_pos rfl]
        rw [parseStringBody_escape s.data rest]
        rfl
      | arr xs =>
        cases xs with
        | nil => rfl
        | cons x tl =>
          have hIH := ihL (x :: tl) rest (by simp) (by
            have h1 : sizeV (Json.arr (x :: tl)) = sizeL (x :: tl) + 1 := rfl
            omega)
          obtain ⟨c2, cs2, hc2, hne2r, hne2b⟩ := dumpsChars_head x
          obtain ⟨T, hT⟩ : ∃ T, dumpsArr (x :: tl) = dumpsChars x ++ T := by
            cases tl with
            | nil => exact ⟨[], by rw [dumpsArr, List.append_nil]⟩
            | cons y tl2 => exact ⟨',' :: ' ' :: dumpsArr (y :: tl2), by rw [dumpsArr]⟩
          rw [hT, hc2] at hIH
          simp only [List.cons_append, List.append_assoc, List.nil_append] at hIH
          rw [dumpsChars, hT, hc2]
          simp only [List.cons_append, List.append_assoc, List.singleton_append,
            List.nil_append]
          rw [parseVal_cons]
          rw [if_neg (by decide), if_neg (by decide), if_neg (by decide),
            if_neg (by decide), if_pos rfl]
          dsimp only
          rw [if_neg hne2r]
          rw [hIH]
          rfl
      | obj ms =>
        cases ms with
        | nil => rfl
        | cons m tl =>
          have hIH := ihM (m :: tl) rest (by simp) (by
            have h1 : sizeV (Json.obj (m :: tl)) = sizeM (m :: tl) + 1 := rfl
            omega)
          obtain ⟨k, v⟩ := m
          obtain ⟨T, hT⟩ : ∃ T, dumpsObj ((k, v) :: tl) =
              ('"' :: (escapeString k.data ++ ['"']) ++ ':' :: ' ' :: dumpsChars v)
                ++ T := by
            cases tl with
            | nil => exact ⟨[], by rw [dumpsObj, List.append_nil]⟩
            | cons m2 tl2 =>
              exact ⟨',' :: ' ' :: dumpsObj (m2 :: tl2), by rw [dumpsObj]⟩
          rw [hT] at hIH
          simp only [List.cons_append, List.append_assoc, List.singleton_append,
            List.nil_append] at hIH
          rw [dumpsChars, hT]
          simp only [List.cons_append, List.append_assoc, List.singleton_append,
            List.nil_append]
          rw [parseVal_cons]
          rw [if_neg (by decide), if_neg (by decide), if_neg (by decide),
            if_neg (by decide), if_neg (by decide), if_pos rfl]
          dsimp only
          rw [if_neg (by decide), hIH]
          rfl
    · cases xs with
      | nil => exact absurd rfl hne
      | cons x tl =>
        cases tl with
        | nil =>
          rw [dumpsArr]
          have hx := ihV x (']' :: rest) (by
            have h1 : sizeL [x] = sizeV x + 2 := rfl
            omega) (fun n hn => show ¬ (']'.isDigit = true) by decide)
          rw [parseElems_succ, hx]
          rfl
        | cons y tl2 =>
          rw [dumpsArr]
          simp only [List.cons_append, List.append_assoc]
          have hx := ihV x (',' :: ' ' :: (dumpsArr (y :: tl2) ++ ']' :: rest)) (by
            have h1 : sizeL (x :: y :: tl2) = sizeV x + sizeL (y :: tl2) + 1 := rfl
            have h2 := sizeL_pos (y :: tl2)
            omega) (fun n hn => show ¬ (','.isDigit = true) by decide)
          have hrest := ihL (y :: tl2) rest (by simp) (by
            have h1 : sizeL (x :: y :: tl2) = sizeV x + sizeL (y :: tl2) + 1 := rfl
            have h2 := sizeV_pos x
            omega)
          rw [parseElems_succ, hx]
          show Option.map (fun p => (x :: p.1, p.2))
              (parseElems f (dumpsArr (y :: tl2) ++ ']' :: rest)) =
            some (x :: y :: tl2, rest)
          rw [hrest]
          rfl
    · cases ms with
      | nil => exact absurd rfl hne
      | cons m tl =>
        obtain ⟨k, v⟩ := m
        cases tl with
        | nil =>
          rw [dumpsObj]
          simp only [List.cons_append, List.append_assoc, List.singleton_append]
          rw [parseMembers_succ]
          show (match parseStringBody
                (escapeString k.data ++
                  '"' :: ':' :: ' ' :: (dumpsChars v ++ '}' :: rest)) with
            | none => none
            | some (q, r1) =>
              match r1 with
              | ':' :: ' ' :: r2 =>
                match parseVal f r2 with
                | none => none
                | some (w, r3) =>
                  match r3 with
                  | ',' :: ' ' :: r4 =>
                    (parseMembers f r4).map (fun p => ((⟨q⟩, w) :: p.1, p.2))
                  | '}' :: r4 => some ([(⟨q⟩, w)], r4)
                  | _ => none
              | _ => none) = some ([(k, v)], rest)
          rw [parseStringBody_escape k.data
            (':' :: ' ' :: (dumpsChars v ++ '}' :: rest))]
          show (match parseVal f (dumpsChars v ++ '}' :: rest) with
            | none => none
            | some (w, r3) =>
              match r3 with
              | ',' :: ' ' :: r4 =>
                (parseMembers f r4).map (fun p => ((⟨k.data⟩, w) :: p.1, p.2))
              | '}' :: r4 => some ([(⟨k.data⟩, w)], r4)
              | _ => none) = some ([(k, v)], rest)
          have hv := ihV v ('}' :: rest) (by
            have h1 : sizeM [(k, v)] = sizeV v + 2 := rfl
            omega) (fun n hn => show ¬ ('}'.isDigit = true) by decide)
          rw [hv]
          rfl
        | cons m2 tl2 =>
          rw [dumpsObj]
          simp only [List.cons_append, List.append_assoc, List.singleton_append]
          rw [parseMembers_succ]
          show (match parseStringBody
                (escapeString k.data ++
                  '"' :: ':' :: ' ' ::
                    (dumpsChars v ++
                      ',' :: ' ' :: (dumpsObj (m2 :: tl2) ++ '}' :: rest))) with
            | none => none
            | some (q, r1) =>
              match r1 with
              | ':' :: ' ' :: r2 =>
                match parseVal f r2 with
                | none => none
                | some (w, r3) =>
                  match r3 with
                  | ',' :: ' ' :: r4 =>
                    (parseMembers f r4).map (fun p => ((⟨q⟩, w) :: p.1, p.2))
                  | '}' :: r4 => some ([(⟨q⟩, w)], r4)
                  | _ => none
              | _ => none) = some ((k, v) :: m2 :: tl2, rest)
          rw [parseStringBody_escape k.data
            (':' :: ' ' :: (dumpsChars v ++ ',' :: ' ' :: (dumpsObj (m2 :: tl2) ++
              '}' :: rest)))]
          show (match parseVal f
                (dumpsChars v ++
                  ',' :: ' ' :: (dumpsObj (m2 :: tl2) ++ '}' :: rest)) with
            | none => none
            | some (w, r3) =>
              match r3 with
              | ',' :: ' ' :: r4 =>
                (parseMembers f r4).map (fun p => ((⟨k.data⟩, w) :: p.1, p.2))
              | '}' :: r4 => some ([(⟨k.data⟩, w)], r4)
              | _ => none) = some ((k, v) :: m2 :: tl2, rest)
          have hv := ihV v
            (',' :: ' ' :: (dumpsObj (m2 :: tl2) ++ '}' :: rest)) (by
            have h1 : sizeM ((k, v) :: m2 :: tl2) = sizeV v + sizeM (m2 :: tl2) + 1 := rfl
            have h2 := sizeM_pos (m2 :: tl2)
            omega) (fun n hn => show ¬ (','.isDigit = true) by decide)
          rw [hv]
          show Option.map (fun p => ((⟨k.data⟩, v) :: p.1, p.2))
              (parseMembers f (dumpsObj (m2 :: tl2) ++ '}' :: rest)) =
            some ((k, v) :: m2 :: tl2, rest)
          have hrest := ihM (m2 :: tl2) rest (by simp) (by
            have h1 : sizeM ((k, v) :: m2 :: tl2) = sizeV v + sizeM (m2 :: tl2) + 1 := rfl
            have h2 := sizeV_pos v
            omega)
          rw [hrest]
          rfl

theorem loads_dumps (v : Json) : loads (dumps v) = some v := by
  have h := (parse_round (2 * (dumpsChars v).length + 2)).1 v []
    (by have := sizeV_le_len v; omega)
    (fun n hn hd => hd)
  rw [List.append_nil] at h
  show (match parseVal (2 * (dumpsChars v).length + 2) (dumpsChars v) with
    | some (w, []) => some w
    | _ => none) = some v
  rw [h]

/-- C10: set_game_state followed by get_game_state for the same room returns
the stored state unchanged (the state round-trips through json.dumps and
json.loads), and get_game_state for a room whose state key is absent returns
none rather than raising or producing an empty state. -/
theorem game_state_roundtrip :
    (∀ (store : List (String × String)) (room : String) (s : Json),
      get_game_state (set_game_state store room s) room = some s) ∧
    (∀ (store : List (String × String)) (room : String),
      lookupKey store ("game:" ++ room ++ ":state") = none →
      get_game_state store room = none) := by
  refine ⟨fun store room s => ?_, fun store room hnone => ?_⟩
  · have hne : dumps s ≠ "" := by
      obtain ⟨c, cs, hc, _, _⟩ := dumpsChars_head s
      intro hemp
      have h2 : dumpsChars s = [] := congrArg String.data hemp
      rw [hc] at h2
      exact List.noConfusion h2
    rw [get_game_state, set_game_state, lookupKey_setKey_self]
    show (if dumps s = "" then none else loads (dumps s)) = some s
    rw [if_neg hne, loads_dumps]
  · rw [get_game_state, hnone]

/-- C10 witness: a concrete state round-trips through the store, and reading
a room never written yields none. -/
theorem game_state_roundtrip_witness :
    get_game_state
        (set_game_state [] "r1"
          (Json.obj [("turn", Json.num 3), ("world", Json.obj [])])) "r1" =
      some (Json.obj [("turn", Json.num 3), ("world", Json.obj [])]) ∧
    get_game_state [] "r1" = none :=
  ⟨game_state_roundtrip.1 [] "r1"
      (Json.obj [("turn", Json.num 3), ("world", Json.obj [])]),
   game_state_roundtrip.2 [] "r1" rfl⟩

end Spec2
